import Mathlib

/-!
Verification of the corpus snapshot store (TypeScript sources under src/)
against its natural-language specification.

The TypeScript code is shallowly embedded: JavaScript numbers that hold
millisecond timestamps, sizes and sequence counters are modelled as Nat
(spans, which may be negative, as Int), byte arrays as List Nat with each
entry below 256, JavaScript Map objects as association lists in insertion
order (Map.set updates an existing key in place and appends a fresh key;
iteration follows insertion order), and fallible operations as
Except CorpusError.  Asynchronous code in the sources is sequential
(single-threaded cooperative scheduling), so it is embedded as plain
state-passing functions.
-/

namespace Corpus

/-- Wire-stable error kinds of the error taxonomy (src/types.ts). -/
inductive ErrKind where
  | not_found
  | already_exists
  | storage_error
  | decode_error
  | encode_error
  | hash_mismatch
  | invalid_config
  | validation_error
  | observation_not_found
deriving DecidableEq, Repr

/-- A corpus error: the kind discriminant plus the identifying fields the
code attaches (store_id/version for not_found, id for observation errors).
Extra payload fields (cause, message) are dropped since no branching in the
embedded code inspects them. -/
structure CorpusError where
  kind : ErrKind
  store_id : String := ""
  version : String := ""
  id : String := ""
deriving DecidableEq, Repr

/-- Result type of the sources: ok value or err error. -/
abbrev CResult (a : Type) := Except CorpusError a

instance {e a : Type} [DecidableEq e] [DecidableEq a] : DecidableEq (Except e a) :=
  fun x y =>
    match x, y with
    | .ok u, .ok v => decidable_of_iff (u = v) (by simp)
    | .error u, .error v => decidable_of_iff (u = v) (by simp)
    | .ok _, .error _ => Decidable.isFalse (by simp)
    | .error _, .ok _ => Decidable.isFalse (by simp)

/-- JavaScript string comparison a < b: lexicographic on UTF-16 code units.
All strings manipulated here are ASCII, where code units coincide with
code points, so the comparison is on Char code points. -/
def jsLtChars : List Char → List Char → Bool
  | [], [] => false
  | [], _ :: _ => true
  | _ :: _, [] => false
  | a :: as, b :: bs => if a = b then jsLtChars as bs else decide (a.toNat < b.toNat)

/-- JavaScript a < b on strings. -/
def jsLt (a b : String) : Bool := jsLtChars a.data b.data

/-! ## Version generation (src/utils.ts generate_version)

generate_version encodes Date.now() as 8 big-endian bytes, trims leading
zero bytes (keeping at least the final byte), base64-encodes via btoa,
applies the url-safe substitutions plus to minus and slash to underscore,
strips the padding equals signs, and appends a dot-separated decimal
sequence suffix for repeat calls in the same millisecond. -/

/-- The standard base64 alphabet used by btoa, as a table indexed 0..63. -/
def stdAlphabet : List Char :=
  ['A','B','C','D','E','F','G','H','I','J','K','L','M','N','O','P',
   'Q','R','S','T','U','V','W','X','Y','Z',
   'a','b','c','d','e','f','g','h','i','j','k','l','m','n','o','p',
   'q','r','s','t','u','v','w','x','y','z',
   '0','1','2','3','4','5','6','7','8','9','+','/']

/-- Character for a 6-bit group under the standard base64 alphabet. -/
def stdChar (n : Nat) : Char := stdAlphabet.getD n 'A'

/-- btoa on a byte list: 3-byte groups become 4 alphabet characters, a
trailing 1- or 2-byte group is padded with equals signs. -/
def b64chunks : List Nat → List Char
  | [] => []
  | [a] => [stdChar (a / 4), stdChar (a % 4 * 16), '=', '=']
  | [a, b] => [stdChar (a / 4), stdChar (a % 4 * 16 + b / 16), stdChar (b % 16 * 4), '=']
  | a :: b :: c :: rest =>
      [stdChar (a / 4), stdChar (a % 4 * 16 + b / 16),
       stdChar (b % 16 * 4 + c / 64), stdChar (c % 64)] ++ b64chunks rest

/-- The url-safe substitution applied after btoa: plus becomes minus,
slash becomes underscore, everything else is unchanged. -/
def substUrl (c : Char) : Char :=
  if c = '+' then '-' else if c = '/' then '_' else c

/-- The 6-bit groups of a byte list without padding (specification view of
b64chunks used for the injectivity proof). -/
def sixbitsOf : List Nat → List Nat
  | [] => []
  | [a] => [a / 4, a % 4 * 16]
  | [a, b] => [a / 4, a % 4 * 16 + b / 16, b % 16 * 4]
  | a :: b :: c :: rest =>
      [a / 4, a % 4 * 16 + b / 16, b % 16 * 4 + c / 64, c % 64] ++ sixbitsOf rest

/-- Left inverse of sixbitsOf on byte lists. -/
def bytesOfSixbits : List Nat → List Nat
  | [] => []
  | [_] => []
  | [h1, h2] => [h1 * 4 + h2 / 16]
  | [h1, h2, h3] => [h1 * 4 + h2 / 16, h2 % 16 * 16 + h3 / 4]
  | h1 :: h2 :: h3 :: h4 :: rest =>
      [h1 * 4 + h2 / 16, h2 % 16 * 16 + h3 / 4, h3 % 4 * 64 + h4] ++ bytesOfSixbits rest

/-- Url-safe character of a 6-bit group. -/
def urlChar (n : Nat) : Char := substUrl (stdChar n)

/-- Decimal digit character (JavaScript template-literal rendering of a
non-negative integer). -/
def decDigit (d : Nat) : Char := Char.ofNat (48 + d)

/-- Decimal digit characters, fuelled so the definition is structural and
evaluates inside the kernel; the fuel is always sufficient (see decChars). -/
def decCharsAux : Nat → Nat → List Char
  | 0, _ => []
  | fuel + 1, n =>
      if n < 10 then [decDigit n]
      else decCharsAux fuel (n / 10) ++ [decDigit (n % 10)]

/-- Decimal digit characters of a Nat, most significant first. -/
def decChars (n : Nat) : List Char := decCharsAux (n + 1) n

/-- Value of a decimal digit string (left inverse of decChars). -/
def decVal (l : List Char) : Nat :=
  l.foldl (fun a c => a * 10 + (c.toNat - 48)) 0

/-- The 8 big-endian bytes written by setBigUint64 for a timestamp. -/
def beBytes8 (t : Nat) : List Nat :=
  [t / 2 ^ 56 % 256, t / 2 ^ 48 % 256, t / 2 ^ 40 % 256, t / 2 ^ 32 % 256,
   t / 2 ^ 24 % 256, t / 2 ^ 16 % 256, t / 2 ^ 8 % 256, t % 256]

/-- The leading-zero trim loop of generate_version: drop leading zero bytes
but keep at least the last byte (the source caps the start index at 7 for
its 8-byte buffer, which on 8-byte inputs is exactly this function). -/
def trimZeros : List Nat → List Nat
  | [] => []
  | [x] => [x]
  | x :: rest => if x = 0 then trimZeros rest else x :: rest

/-- Big-endian value of a byte list. -/
def byteVal (l : List Nat) : Nat := l.foldl (fun a b => a * 256 + b) 0

/-- The base64url token of a timestamp, exactly as the source computes it:
btoa of the trimmed bytes, then the url substitutions, then stripping every
equals sign. -/
def versionToken (t : Nat) : List Char :=
  ((b64chunks (trimZeros (beBytes8 t))).map substUrl).filter (fun c => c ≠ '=')

/-- Process-wide version generator state (module-level last_timestamp and
sequence variables in src/utils.ts, both initially 0). -/
structure GenState where
  last_timestamp : Nat
  sequence : Nat
deriving DecidableEq, Repr

/-- Initial generator state of a fresh process. -/
def GenState.init : GenState := ⟨0, 0⟩

/-- generate_version: one call at wall-clock millisecond now, returning the
version string and the updated process state. -/
def generate_version (now : Nat) (s : GenState) : String × GenState :=
  let s' : GenState :=
    if now = s.last_timestamp then ⟨s.last_timestamp, s.sequence + 1⟩
    else ⟨now, 0⟩
  let base64 := String.mk (versionToken now)
  let v := if s'.sequence > 0 then base64 ++ "." ++ String.mk (decChars s'.sequence)
           else base64
  (v, s')

/-- Run generate_version once per timestamp in ts, threading the process
state, and collect the returned version strings in call order. -/
def run_versions (ts : List Nat) (s : GenState) : List String :=
  match ts with
  | [] => []
  | t :: rest =>
      let (v, s') := generate_version t s
      v :: run_versions rest s'

example : versionToken 1 = ['A', 'Q'] := by decide

example : run_versions [1, 1, 1] GenState.init = ["AQ", "AQ.1", "AQ.2"] := by decide

/-! ### Injectivity of the version token -/

theorem urlChar_inj_fin : ∀ m n : Fin 64, urlChar m = urlChar n → (m : Nat) = n := by
  decide

theorem urlChar_ne_eqSign : ∀ n : Fin 64, urlChar n ≠ '=' := by decide

theorem urlChar_ne_dot : ∀ n : Fin 64, urlChar n ≠ '.' := by decide

theorem decDigit_toNat : ∀ d : Fin 10, (decDigit d).toNat = 48 + d := by decide

theorem sixbitsOf_lt : ∀ l : List Nat, (∀ x ∈ l, x < 256) →
    ∀ y ∈ sixbitsOf l, y < 64
  | [], _ => by simp [sixbitsOf]
  | [a], hl => by
      have ha : a < 256 := hl a (by simp)
      simp only [sixbitsOf, List.mem_cons, List.not_mem_nil, or_false]
      rintro y (rfl | rfl) <;> omega
  | [a, b], hl => by
      have ha : a < 256 := hl a (by simp)
      have hb : b < 256 := hl b (by simp)
      simp only [sixbitsOf, List.mem_cons, List.not_mem_nil, or_false]
      rintro y (rfl | rfl | rfl) <;> omega
  | a :: b :: c :: rest, hl => by
      have ha : a < 256 := hl a (by simp)
      have hb : b < 256 := hl b (by simp)
      have hc : c < 256 := hl c (by simp)
      have ih := sixbitsOf_lt rest (fun x hx => hl x (by simp [hx]))
      simp only [sixbitsOf, List.cons_append, List.nil_append, List.mem_cons]
      rintro y (rfl | rfl | rfl | rfl | hy)
      · omega
      · omega
      · omega
      · omega
      · exact ih y hy

theorem b64_urlsafe_eq : ∀ l : List Nat, (∀ x ∈ l, x < 256) →
    ((b64chunks l).map substUrl).filter (fun c => c ≠ '=') = (sixbitsOf l).map urlChar
  | [], _ => rfl
  | [a], hl => by
      have ha : a < 256 := hl a (by simp)
      have h1 : substUrl (stdChar (a / 4)) ≠ '=' := urlChar_ne_eqSign ⟨a / 4, by omega⟩
      have h2 : substUrl (stdChar (a % 4 * 16)) ≠ '=' :=
        urlChar_ne_eqSign ⟨a % 4 * 16, by omega⟩
      simp [b64chunks, sixbitsOf, urlChar, List.filter_cons, h1, h2,
        show substUrl '=' = '=' from rfl]
  | [a, b], hl => by
      have ha : a < 256 := hl a (by simp)
      have hb : b < 256 := hl b (by simp)
      have h1 : substUrl (stdChar (a / 4)) ≠ '=' := urlChar_ne_eqSign ⟨a / 4, by omega⟩
      have h2 : substUrl (stdChar (a % 4 * 16 + b / 16)) ≠ '=' :=
        urlChar_ne_eqSign ⟨a % 4 * 16 + b / 16, by omega⟩
      have h3 : substUrl (stdChar (b % 16 * 4)) ≠ '=' :=
        urlChar_ne_eqSign ⟨b % 16 * 4, by omega⟩
      simp [b64chunks, sixbitsOf, urlChar, List.filter_cons, h1, h2, h3,
        show substUrl '=' = '=' from rfl]
  | a :: b :: c :: rest, hl => by
      have ha : a < 256 := hl a (by simp)
      have hb : b < 256 := hl b (by simp)
      have hc : c < 256 := hl c (by simp)
      have ih := b64_urlsafe_eq rest (fun x hx => hl x (by simp [hx]))
      have h1 : substUrl (stdChar (a / 4)) ≠ '=' := urlChar_ne_eqSign ⟨a / 4, by omega⟩
      have h2 : substUrl (stdChar (a % 4 * 16 + b / 16)) ≠ '=' :=
        urlChar_ne_eqSign ⟨a % 4 * 16 + b / 16, by omega⟩
      have h3 : substUrl (stdChar (b % 16 * 4 + c / 64)) ≠ '=' :=
        urlChar_ne_eqSign ⟨b % 16 * 4 + c / 64, by omega⟩
      have h4 : substUrl (stdChar (c % 64)) ≠ '=' := urlChar_ne_eqSign ⟨c % 64, by omega⟩
      simp only [ne_eq, decide_not] at ih
      simp only [b64chunks, sixbitsOf, List.cons_append, List.nil_append,
        List.append_eq, List.map_cons, List.map_append, List.filter_append,
        List.filter_cons]
      simp [h1, h2, h3, h4, ih, urlChar]

theorem bytesOfSixbits_sixbitsOf : ∀ l : List Nat, (∀ x ∈ l, x < 256) →
    bytesOfSixbits (sixbitsOf l) = l
  | [], _ => rfl
  | [a], hl => by
      have ha : a < 256 := hl a (by simp)
      simp only [sixbitsOf, bytesOfSixbits, List.cons.injEq, and_true]
      omega
  | [a, b], hl => by
      have ha : a < 256 := hl a (by simp)
      have hb : b < 256 := hl b (by simp)
      simp only [sixbitsOf, bytesOfSixbits, List.cons.injEq, and_true]
      constructor <;> omega
  | a :: b :: c :: rest, hl => by
      have ha : a < 256 := hl a (by simp)
      have hb : b < 256 := hl b (by simp)
      have hc : c < 256 := hl c (by simp)
      have ih := bytesOfSixbits_sixbitsOf rest (fun x hx => hl x (by simp [hx]))
      simp only [sixbitsOf, List.cons_append, List.nil_append, List.append_eq,
        bytesOfSixbits, List.cons.injEq, ih, and_true]
      refine ⟨?_, ?_, ?_⟩ <;> omega

theorem mem_trimZeros : ∀ l : List Nat, ∀ x ∈ trimZeros l, x ∈ l
  | [], x => by simp [trimZeros]
  | [a], x => by simp [trimZeros]
  | a :: b :: rest, x => by
      simp only [trimZeros]
      by_cases h : a = 0
      · simp only [h, if_pos rfl]
        intro hx
        exact List.mem_cons_of_mem _ (mem_trimZeros (b :: rest) x hx)
      · simp [h]

theorem byteVal_trimZeros : ∀ l : List Nat, byteVal (trimZeros l) = byteVal l
  | [] => rfl
  | [a] => rfl
  | a :: b :: rest => by
      simp only [trimZeros]
      by_cases h : a = 0
      · simp only [h, if_pos rfl]
        have := byteVal_trimZeros (b :: rest)
        simpa [byteVal] using this
      · simp [h]

theorem beBytes8_lt (t : Nat) : ∀ x ∈ beBytes8 t, x < 256 := by
  simp only [beBytes8, List.mem_cons, List.not_mem_nil, or_false]
  rintro x (rfl | rfl | rfl | rfl | rfl | rfl | rfl | rfl) <;> omega

theorem byteVal_beBytes8 (t : Nat) : byteVal (beBytes8 t) = t % 2 ^ 64 := by
  simp only [beBytes8, byteVal, List.foldl]
  omega

theorem map_urlChar_inj : ∀ l1 l2 : List Nat, (∀ x ∈ l1, x < 64) → (∀ x ∈ l2, x < 64) →
    l1.map urlChar = l2.map urlChar → l1 = l2
  | [], [], _, _, _ => rfl
  | [], _ :: _, _, _, h => by simp at h
  | _ :: _, [], _, _, h => by simp at h
  | a :: as, b :: bs, h1, h2, h => by
      simp only [List.map_cons, List.cons.injEq] at h
      have ha : a < 64 := h1 a (by simp)
      have hb : b < 64 := h2 b (by simp)
      have hab : a = b := urlChar_inj_fin ⟨a, ha⟩ ⟨b, hb⟩ h.1
      have := map_urlChar_inj as bs (fun x hx => h1 x (by simp [hx]))
        (fun x hx => h2 x (by simp [hx])) h.2
      simp [hab, this]

/-- The base64url token determines the timestamp below 2^64. -/
theorem versionToken_inj {t1 t2 : Nat} (h1 : t1 < 2 ^ 64) (h2 : t2 < 2 ^ 64)
    (h : versionToken t1 = versionToken t2) : t1 = t2 := by
  have hb1 : ∀ x ∈ trimZeros (beBytes8 t1), x < 256 :=
    fun x hx => beBytes8_lt t1 x (mem_trimZeros _ x hx)
  have hb2 : ∀ x ∈ trimZeros (beBytes8 t2), x < 256 :=
    fun x hx => beBytes8_lt t2 x (mem_trimZeros _ x hx)
  rw [versionToken, versionToken, b64_urlsafe_eq _ hb1, b64_urlsafe_eq _ hb2] at h
  have hs := map_urlChar_inj _ _ (sixbitsOf_lt _ hb1) (sixbitsOf_lt _ hb2) h
  have ht : trimZeros (beBytes8 t1) = trimZeros (beBytes8 t2) := by
    have e1 := bytesOfSixbits_sixbitsOf _ hb1
    have e2 := bytesOfSixbits_sixbitsOf _ hb2
    rw [← e1, ← e2, hs]
  have hv : byteVal (beBytes8 t1) = byteVal (beBytes8 t2) := by
    rw [← byteVal_trimZeros, ht, byteVal_trimZeros]
  rw [byteVal_beBytes8, byteVal_beBytes8] at hv
  omega

/-- No character of the base64url token is a dot (the dot is reserved for
the sequence suffix). -/
theorem versionToken_no_dot (t : Nat) : ∀ c ∈ versionToken t, c ≠ '.' := by
  have hb : ∀ x ∈ trimZeros (beBytes8 t), x < 256 :=
    fun x hx => beBytes8_lt t x (mem_trimZeros _ x hx)
  rw [versionToken, b64_urlsafe_eq _ hb]
  intro c hc
  rcases List.mem_map.mp hc with ⟨n, hn, rfl⟩
  exact urlChar_ne_dot ⟨n, sixbitsOf_lt _ hb n hn⟩

/-! ### Decimal suffix and version uniqueness -/

theorem decVal_append_digit (l : List Char) (c : Char) :
    decVal (l ++ [c]) = decVal l * 10 + (c.toNat - 48) := by
  simp [decVal, List.foldl_append]

theorem decVal_decCharsAux : ∀ fuel n : Nat, n < fuel → decVal (decCharsAux fuel n) = n
  | 0, _, h => by omega
  | fuel + 1, n, h => by
      by_cases h10 : n < 10
      · have hd := decDigit_toNat ⟨n, h10⟩
        simp only [decCharsAux, if_pos h10, decVal, List.foldl]
        simp only at hd
        omega
      · have hrec : n / 10 < fuel := by omega
        have ih := decVal_decCharsAux fuel (n / 10) hrec
        have hd := decDigit_toNat ⟨n % 10, by omega⟩
        simp only at hd
        simp only [decCharsAux, if_neg h10, decVal_append_digit, ih, hd]
        omega

theorem decChars_inj {m n : Nat} (h : decChars m = decChars n) : m = n := by
  have e1 := decVal_decCharsAux (m + 1) m (by omega)
  have e2 := decVal_decCharsAux (n + 1) n (by omega)
  have h2 : decVal (decChars m) = decVal (decChars n) := by rw [h]
  simpa [decChars, e1, e2] using h2

/-- A dot-free prefix followed by an empty-or-dot-led suffix decomposes
uniquely. -/
theorem dot_split : ∀ l1 s1 l2 s2 : List Char,
    (∀ c ∈ l1, c ≠ '.') → (∀ c ∈ l2, c ≠ '.') →
    (s1 = [] ∨ ∃ r, s1 = '.' :: r) → (s2 = [] ∨ ∃ r, s2 = '.' :: r) →
    l1 ++ s1 = l2 ++ s2 → l1 = l2 ∧ s1 = s2
  | [], s1, [], s2, _, _, _, _, h => ⟨rfl, by simpa using h⟩
  | [], s1, b :: bs, s2, _, hl2, hs1, _, h => by
      simp only [List.nil_append, List.cons_append] at h
      rcases hs1 with rfl | ⟨r, rfl⟩
      · exact absurd h.symm (List.cons_ne_nil _ _)
      · have : b = '.' := by
          have := congrArg (fun l => l.head?) h
          simpa using this.symm
        exact absurd this (hl2 b (by simp))
  | a :: as, s1, [], s2, hl1, _, _, hs2, h => by
      simp only [List.nil_append, List.cons_append] at h
      rcases hs2 with rfl | ⟨r, rfl⟩
      · exact absurd h (List.cons_ne_nil _ _)
      · have : a = '.' := by
          have := congrArg (fun l => l.head?) h
          simpa using this
        exact absurd this (hl1 a (by simp))
  | a :: as, s1, b :: bs, s2, hl1, hl2, hs1, hs2, h => by
      simp only [List.cons_append, List.cons.injEq] at h
      have := dot_split as s1 bs s2 (fun c hc => hl1 c (by simp [hc]))
        (fun c hc => hl2 c (by simp [hc])) hs1 hs2 h.2
      exact ⟨by simp [h.1, this.1], this.2⟩

/-- Sequence used by the next generate_version call. -/
def nextSeq (now : Nat) (s : GenState) : Nat :=
  if now = s.last_timestamp then s.sequence + 1 else 0

/-- Character-level form of a generated version string. -/
def versionChars (t seq : Nat) : List Char :=
  versionToken t ++ (if seq > 0 then '.' :: decChars seq else [])

/-- Characterization of generate_version in terms of versionChars. -/
theorem generate_version_eq (now : Nat) (s : GenState) :
    generate_version now s =
      (String.mk (versionChars now (nextSeq now s)), ⟨now, nextSeq now s⟩) := by
  have hdot : ("." : String).data = ['.'] := by decide
  by_cases h : now = s.last_timestamp
  · simp only [generate_version, nextSeq, versionChars, if_pos h, Nat.succ_pos,
      Prod.mk.injEq]
    refine ⟨?_, ?_⟩
    · apply String.ext
      simp [String.data_append, hdot]
    · simp [h]
  · simp only [generate_version, nextSeq, versionChars, if_neg h, Prod.mk.injEq]
    refine ⟨?_, ?_⟩
    · apply String.ext
      simp
    · trivial

/-- Two consecutive generate_version calls never return the same string,
whatever the two wall-clock readings are. -/
theorem generate_version_ne (t1 t2 : Nat) (h1 : t1 < 2 ^ 64) (h2 : t2 < 2 ^ 64)
    (s : GenState) :
    (generate_version t1 s).1 ≠ (generate_version t2 (generate_version t1 s).2).1 := by
  rw [generate_version_eq, generate_version_eq]
  intro heq
  have hd : versionChars t1 (nextSeq t1 s) =
      versionChars t2 (nextSeq t2 ⟨t1, nextSeq t1 s⟩) := congrArg String.data heq
  set q1 := nextSeq t1 s with hq1
  have hshape : ∀ q : Nat, (if q > 0 then '.' :: decChars q else []) = [] ∨
      ∃ r, (if q > 0 then '.' :: decChars q else []) = '.' :: r := by
    intro q
    by_cases h : q > 0
    · exact Or.inr ⟨decChars q, by simp [h]⟩
    · exact Or.inl (by simp [h])
  have hsplit := dot_split _ _ _ _ (versionToken_no_dot t1) (versionToken_no_dot t2)
    (hshape q1) (hshape (nextSeq t2 ⟨t1, q1⟩)) hd
  have ht : t1 = t2 := versionToken_inj h1 h2 hsplit.1
  subst ht
  have hq2 : nextSeq t1 ⟨t1, q1⟩ = q1 + 1 := by simp [nextSeq]
  rw [hq2] at hsplit
  have hsuf := hsplit.2
  by_cases hq : q1 > 0
  · simp only [if_pos hq, Nat.succ_pos, if_pos] at hsuf
    have : q1 = q1 + 1 := decChars_inj (by simpa using hsuf)
    omega
  · simp only [if_neg hq, Nat.succ_pos, if_pos] at hsuf
    exact absurd hsuf.symm (List.cons_ne_nil _ _)

/-! ## Data model (src/types.ts) -/

/-- Parent reference capturing lineage. -/
structure ParentRef where
  store_id : String
  version : String
  role : Option String := none
deriving DecidableEq, Repr

/-- Snapshot metadata (src/types.ts SnapshotMeta).  Date instants are
millisecond timestamps as Nat. -/
structure SnapshotMeta where
  store_id : String
  version : String
  parents : List ParentRef
  created_at : Nat
  invoked_at : Option Nat := none
  content_hash : String
  content_type : String
  size_bytes : Nat
  data_key : String
  tags : Option (List String) := none
deriving DecidableEq, Repr

/-! ## JavaScript Map embedding

A Map is an association list in insertion order: set of an existing key
updates the entry in place (keeping its position), set of a fresh key
appends, delete removes the entry, iteration follows the list order. -/

/-- JavaScript s.startsWith(p). -/
def strStartsWith (s p : String) : Bool := p.data.isPrefixOf s.data

/-- Map.get. -/
def mapGet {V : Type} (m : List (String × V)) (k : String) : Option V :=
  (m.find? (fun p => p.1 = k)).map (fun p => p.2)

/-- Map.has. -/
def mapHas {V : Type} (m : List (String × V)) (k : String) : Bool :=
  m.any (fun p => p.1 = k)

/-- Map.set. -/
def mapSet {V : Type} (m : List (String × V)) (k : String) (v : V) :
    List (String × V) :=
  if m.any (fun p => p.1 = k) then
    m.map (fun p => if p.1 = k then (k, v) else p)
  else m ++ [(k, v)]

/-- Map.delete (just the resulting map). -/
def mapDelete {V : Type} (m : List (String × V)) (k : String) : List (String × V) :=
  m.filter (fun p => p.1 ≠ k)

/-! ## In-memory backend (src/backend/memory.ts) -/

/-- Backend state: the two Maps of the memory backend. -/
structure MemoryState where
  meta_store : List (String × SnapshotMeta) := []
  data_store : List (String × List Nat) := []
deriving DecidableEq, Repr

/-- Key of the metadata Map. -/
def make_meta_key (store_id version : String) : String :=
  store_id ++ ":" ++ version

/-- metadata get against the memory Map. -/
def memory_meta_get (st : MemoryState) (sid v : String) : Option SnapshotMeta :=
  mapGet st.meta_store (make_meta_key sid v)

/-- metadata put (upsert). -/
def memory_meta_put (st : MemoryState) (meta : SnapshotMeta) : MemoryState :=
  { st with meta_store :=
      mapSet st.meta_store (make_meta_key meta.store_id meta.version) meta }

/-- metadata delete. -/
def memory_meta_delete (st : MemoryState) (sid v : String) : MemoryState :=
  { st with meta_store := mapDelete st.meta_store (make_meta_key sid v) }

/-- The store's rows in Map iteration (insertion) order. -/
def memory_meta_rows (st : MemoryState) (sid : String) : List SnapshotMeta :=
  (st.meta_store.filter (fun p => strStartsWith p.1 (sid ++ ":"))).map (fun p => p.2)

/-- find_by_hash: first row of the store with the given content hash, in
iteration order. -/
def memory_find_by_hash (st : MemoryState) (sid content_hash : String) :
    Option SnapshotMeta :=
  (st.meta_store.find? (fun p =>
      strStartsWith p.1 (sid ++ ":") && p.2.content_hash = content_hash)).map
    (fun p => p.2)

/-- Fold step of get_latest: replace the best row only on strictly greater
created_at, so the first row attaining the maximum wins. -/
def latestPick (acc : Option SnapshotMeta) (m : SnapshotMeta) : Option SnapshotMeta :=
  match acc with
  | none => some m
  | some a => if a.created_at < m.created_at then some m else some a

/-- get_latest of the memory backend (src/backend/memory.ts lines 223-238). -/
def memory_get_latest (st : MemoryState) (sid : String) : CResult SnapshotMeta :=
  match (memory_meta_rows st sid).foldl latestPick none with
  | some m => Except.ok m
  | none => Except.error ⟨.not_found, sid, "latest", ""⟩

/-- data get. -/
def memory_data_get (st : MemoryState) (k : String) : Option (List Nat) :=
  mapGet st.data_store k

/-- data put. -/
def memory_data_put (st : MemoryState) (k : String) (bytes : List Nat) : MemoryState :=
  { st with data_store := mapSet st.data_store k bytes }

/-- Number of physical blobs stored under a data key. -/
def blobCount (st : MemoryState) (k : String) : Nat :=
  st.data_store.countP (fun p => p.1 = k)

/-! ## Snapshot engine (src/corpus.ts create_store) -/

/-- Observability events emitted at engine and backend boundaries. -/
inductive Event where
  | meta_get (store_id version : String) (found : Bool)
  | meta_put (store_id version : String)
  | meta_delete (store_id version : String)
  | data_get (store_id version : String) (found : Bool)
  | data_put (store_id version : String) (size_bytes : Nat) (deduplicated : Bool)
  | snapshot_get (store_id version : String) (found : Bool)
  | snapshot_put (store_id version : String) (content_hash : String) (deduplicated : Bool)
  | error (e : CorpusError)
deriving DecidableEq, Repr

/-- Options of Store.put. -/
structure PutOpts where
  parents : Option (List ParentRef) := none
  invoked_at : Option Nat := none
  tags : Option (List String) := none
deriving DecidableEq, Repr

/-- Engine state over the memory backend: the backend Maps plus the
process-wide version generator. -/
structure EngineState where
  mem : MemoryState
  gen : GenState
deriving DecidableEq, Repr

/-- Default data-key policy of create_store. -/
def make_data_key (store_id content_hash : String) : String :=
  store_id ++ "/" ++ content_hash

/-- The SnapshotMeta assembled by create_store.put (src/corpus.ts lines
53-64). -/
def mkPutMeta (sid version : String) (o : PutOpts) (created : Nat)
    (content_hash ct : String) (size : Nat) (data_key : String) : SnapshotMeta :=
  { store_id := sid
    version := version
    parents := o.parents.getD []
    created_at := created
    invoked_at := o.invoked_at
    content_hash := content_hash
    content_type := ct
    size_bytes := size
    data_key := data_key
    tags := o.tags }

/-- create_store.put over the memory backend (src/corpus.ts lines 24-74).
SHA-256 is opaque crypto whose output the engine only uses as a string key,
so it is a parameter hashFn; the codec encode (which may throw) is the
parameter encode returning none on failure.  now is the Date.now() read
inside generate_version, created the new Date() read for created_at.
Memory-backend metadata.put and data.put always succeed, so their failure
branches in the source are unreachable here. -/
def store_put {α : Type} (hashFn : List Nat → String) (encode : α → Option (List Nat))
    (content_type : String) (sid : String) (d : α) (opts : PutOpts)
    (now created : Nat) (st : EngineState) :
    CResult SnapshotMeta × EngineState × List Event :=
  let vg := generate_version now st.gen
  let version := vg.1
  match encode d with
  | none =>
      (Except.error ⟨.encode_error, "", "", ""⟩, ⟨st.mem, vg.2⟩,
        [.error ⟨.encode_error, "", "", ""⟩])
  | some bytes =>
      let content_hash := hashFn bytes
      let existing := memory_find_by_hash st.mem sid content_hash
      let deduplicated := existing.isSome
      let data_key := match existing with
        | some m => m.data_key
        | none => make_data_key sid content_hash
      let mem1 := if deduplicated then st.mem else memory_data_put st.mem data_key bytes
      let meta := mkPutMeta sid version opts created content_hash content_type
        bytes.length data_key
      let mem2 := memory_meta_put mem1 meta
      (Except.ok meta, ⟨mem2, vg.2⟩,
        [.data_put sid version bytes.length deduplicated,
         .meta_put sid version,
         .snapshot_put sid version content_hash deduplicated])

/-- create_store.delete over the memory backend (src/corpus.ts lines
137-150): metadata.get, then metadata.delete; the data Map is never
touched. -/
def store_delete (sid v : String) (st : MemoryState) :
    CResult Unit × MemoryState × List Event :=
  match memory_meta_get st sid v with
  | none =>
      (Except.error ⟨.not_found, sid, v, ""⟩, st, [.meta_get sid v false])
  | some _ =>
      (Except.ok (), memory_meta_delete st sid v,
        [.meta_get sid v true, .meta_delete sid v, .meta_delete sid v])

/-! ### Map lemmas -/

theorem mapGet_eq_none {V : Type} {m : List (String × V)} {k : String} :
    mapGet m k = none ↔ ∀ p ∈ m, ¬(p.1 = k) := by
  simp [mapGet, List.find?_eq_none]

theorem mapHas_false_iff {V : Type} {m : List (String × V)} {k : String} :
    mapHas m k = false ↔ ∀ p ∈ m, ¬(p.1 = k) := by
  simp [mapHas]

theorem find?_append_none {α : Type} {P : α → Bool} :
    ∀ {l1 : List α} (l2 : List α), l1.find? P = none → (l1 ++ l2).find? P = l2.find? P
  | [], l2, _ => rfl
  | a :: as, l2, h => by
      rw [List.find?_cons] at h
      rcases hPa : P a with _ | _
      · simp only [List.cons_append, List.find?_cons, hPa]
        exact find?_append_none l2 (by simpa [hPa] using h)
      · simp [hPa] at h

theorem findP_mapOverwrite {V : Type} {P : String × V → Bool} {k : String} {v : V}
    (hP : P (k, v) = true) :
    ∀ m : List (String × V), m.find? P = none →
      (m.map (fun p => if p.1 = k then (k, v) else p)).find? P =
        (if m.any (fun p => p.1 = k) then some (k, v) else none)
  | [], _ => rfl
  | p :: rest, h => by
      rw [List.find?_cons] at h
      rcases hPp : P p with _ | _
      · have hrest := findP_mapOverwrite hP rest (by simpa [hPp] using h)
        by_cases hk : p.1 = k
        · simp [List.find?_cons, hk, hP]
        · simp only [List.map_cons, if_neg hk, List.find?_cons, hPp, List.any_cons]
          simp only [hrest]
          by_cases hr : rest.any (fun p => p.1 = k) <;> simp [hk, hr]
      · simp [hPp] at h

theorem find?_mapSet {V : Type} {P : String × V → Bool} {m : List (String × V)}
    {k : String} {v : V} (hP : P (k, v) = true) (hnone : m.find? P = none) :
    (mapSet m k v).find? P = some (k, v) := by
  rw [mapSet]
  by_cases hany : m.any (fun p => p.1 = k)
  · rw [if_pos hany, findP_mapOverwrite hP m hnone, if_pos hany]
  · rw [if_neg hany, find?_append_none _ hnone]
    simp [List.find?_cons, hP]

theorem keyFind_mapOverwrite {V : Type} {k : String} {v : V} :
    ∀ m : List (String × V), m.any (fun p => p.1 = k) = true →
      (m.map (fun p => if p.1 = k then (k, v) else p)).find?
          (fun p => p.1 = k) = some (k, v)
  | p :: rest, h => by
      by_cases hk : p.1 = k
      · simp [List.find?_cons, hk]
      · simp only [List.any_cons, Bool.or_eq_true, decide_eq_true_eq] at h
        have hrest := keyFind_mapOverwrite (v := v) rest
          (by rcases h with h | h; exact absurd h hk; simpa using h)
        simp only [List.map_cons, if_neg hk, List.find?_cons]
        simp [hk, hrest]

theorem mapGet_mapSet_self {V : Type} (m : List (String × V)) (k : String) (v : V) :
    mapGet (mapSet m k v) k = some v := by
  rw [mapGet, mapSet]
  by_cases hany : m.any (fun p => p.1 = k)
  · rw [if_pos hany, keyFind_mapOverwrite m hany]
    rfl
  · rw [if_neg hany, find?_append_none]
    · simp [List.find?_cons]
    · rw [List.find?_eq_none]
      intro p hp
      simp only [List.any_eq_true] at hany
      simpa using fun hc => hany ⟨p, hp, by simpa using hc⟩

theorem keyFind_mapOverwrite_other {V : Type} {k k' : String} {v : V} (h : k' ≠ k) :
    ∀ m : List (String × V),
      (m.map (fun p => if p.1 = k then (k, v) else p)).find? (fun p => p.1 = k') =
        m.find? (fun p => p.1 = k')
  | [] => rfl
  | p :: rest => by
      have ih := keyFind_mapOverwrite_other (k := k) (v := v) h rest
      by_cases hk : p.1 = k
      · have h2 : ¬(k = k') := fun hc => h hc.symm
        have h3 : ¬(p.1 = k') := by rw [hk]; exact fun hc => h hc.symm
        simp [List.find?_cons, hk, h2, h3, ih]
      · by_cases hk' : p.1 = k'
        · simp [List.find?_cons, hk, hk', h, ih]
        · simp [List.find?_cons, hk, hk', ih]

theorem mapGet_mapSet_other {V : Type} (m : List (String × V)) (k k' : String) (v : V)
    (h : k' ≠ k) : mapGet (mapSet m k v) k' = mapGet m k' := by
  rw [mapGet, mapSet]
  by_cases hany : m.any (fun p => p.1 = k)
  · rw [if_pos hany, mapGet]
    congr 1
    exact keyFind_mapOverwrite_other h m
  · rw [if_neg hany, mapGet]
    congr 1
    rw [List.find?_append]
    have h2 : ¬(k = k') := fun hc => h hc.symm
    have h1 : List.find? (fun p => p.1 = k') [(k, v)] = none := by
      simp [List.find?_cons, h2]
    rw [h1, Option.or_none]

theorem mapGet_mapDelete_self {V : Type} (m : List (String × V)) (k : String) :
    mapGet (mapDelete m k) k = none := by
  rw [mapGet, Option.map_eq_none', List.find?_eq_none]
  intro p hp
  rw [mapDelete, List.mem_filter] at hp
  simpa using hp.2

theorem mapGet_mapDelete_other {V : Type} (m : List (String × V)) (k k' : String)
    (h : k' ≠ k) : mapGet (mapDelete m k) k' = mapGet m k' := by
  rw [mapGet, mapGet, mapDelete]
  congr 1
  induction m with
  | nil => rfl
  | cons p rest ih =>
      by_cases hk : p.1 = k
      · have h3 : ¬(p.1 = k') := by rw [hk]; exact fun hc => h hc.symm
        rw [List.filter_cons_of_neg (by simp [hk]), ih,
          List.find?_cons_of_neg _ (by simp [h3])]
      · by_cases hk' : p.1 = k'
        · rw [List.filter_cons_of_pos (by simp [hk]),
            List.find?_cons_of_pos _ (by simp [hk']),
            List.find?_cons_of_pos _ (by simp [hk'])]
        · rw [List.filter_cons_of_pos (by simp [hk]),
            List.find?_cons_of_neg _ (by simp [hk']),
            List.find?_cons_of_neg _ (by simp [hk']), ih]

theorem blobCount_fresh_put {m : List (String × List Nat)} {k : String}
    (h : mapHas m k = false) (bytes : List Nat) :
    (mapSet m k bytes).countP (fun p => p.1 = k) = 1 := by
  rw [mapHas] at h
  rw [mapSet, if_neg (by simp [h]), List.countP_append]
  have h0 : m.countP (fun p => p.1 = k) = 0 := by
    rw [List.countP_eq_zero]
    simp only [List.any_eq_false, decide_eq_true_eq] at h
    simpa using h
  simp [h0, List.countP_cons]

theorem strStartsWith_make_meta_key (sid v : String) :
    strStartsWith (make_meta_key sid v) (sid ++ ":") = true := by
  rw [strStartsWith, make_meta_key, List.isPrefixOf_iff_prefix]
  exact ⟨v.data, by simp [String.data_append]⟩

theorem mkPutMeta_data_key (sid v : String) (o : PutOpts) (c : Nat) (ch ct : String)
    (n : Nat) (dk : String) : (mkPutMeta sid v o c ch ct n dk).data_key = dk := rfl

theorem mkPutMeta_store_id (sid v : String) (o : PutOpts) (c : Nat) (ch ct : String)
    (n : Nat) (dk : String) : (mkPutMeta sid v o c ch ct n dk).store_id = sid := rfl

theorem mkPutMeta_version (sid v : String) (o : PutOpts) (c : Nat) (ch ct : String)
    (n : Nat) (dk : String) : (mkPutMeta sid v o c ch ct n dk).version = v := rfl

/-! ## C1: content-addressed deduplication of put -/

/-- C1: for two puts on the same store whose codec-encoded bytes are equal
(starting from a store that does not yet hold that content), the returned
metas share content_hash and data_key, their versions differ, the second
put performs no data write (the data Map is unchanged), exactly one
physical blob for that content exists afterwards, and the two puts emit
data_put events with deduplicated false then true. -/
theorem claim1_put_dedup {α : Type} (hashFn : List Nat → String)
    (encode : α → Option (List Nat)) (ct sid : String) (d1 d2 : α)
    (o1 o2 : PutOpts) (bs : List Nat) (t1 c1 t2 c2 : Nat) (st : EngineState)
    (he1 : encode d1 = some bs) (he2 : encode d2 = some bs)
    (ht1 : t1 < 2 ^ 64) (ht2 : t2 < 2 ^ 64)
    (hfresh : memory_find_by_hash st.mem sid (hashFn bs) = none)
    (hblob : mapHas st.mem.data_store (make_data_key sid (hashFn bs)) = false) :
    ∃ m1 m2 : SnapshotMeta,
      (store_put hashFn encode ct sid d1 o1 t1 c1 st).1 = Except.ok m1 ∧
      (store_put hashFn encode ct sid d2 o2 t2 c2
          (store_put hashFn encode ct sid d1 o1 t1 c1 st).2.1).1 = Except.ok m2 ∧
      m1.content_hash = m2.content_hash ∧
      m1.data_key = m2.data_key ∧
      m1.version ≠ m2.version ∧
      (store_put hashFn encode ct sid d2 o2 t2 c2
          (store_put hashFn encode ct sid d1 o1 t1 c1 st).2.1).2.1.mem.data_store =
        (store_put hashFn encode ct sid d1 o1 t1 c1 st).2.1.mem.data_store ∧
      blobCount (store_put hashFn encode ct sid d2 o2 t2 c2
          (store_put hashFn encode ct sid d1 o1 t1 c1 st).2.1).2.1.mem m1.data_key = 1 ∧
      mapGet (store_put hashFn encode ct sid d2 o2 t2 c2
          (store_put hashFn encode ct sid d1 o1 t1 c1 st).2.1).2.1.mem.data_store
          m1.data_key = some bs ∧
      Event.data_put sid m1.version bs.length false ∈
        (store_put hashFn encode ct sid d1 o1 t1 c1 st).2.2 ∧
      Event.data_put sid m2.version bs.length true ∈
        (store_put hashFn encode ct sid d2 o2 t2 c2
          (store_put hashFn encode ct sid d1 o1 t1 c1 st).2.1).2.2 := by
  refine ⟨mkPutMeta sid (generate_version t1 st.gen).1 o1 c1 (hashFn bs) ct
            bs.length (make_data_key sid (hashFn bs)),
          mkPutMeta sid (generate_version t2 (generate_version t1 st.gen).2).1 o2 c2
            (hashFn bs) ct bs.length (make_data_key sid (hashFn bs)), ?_⟩
  have e1 : store_put hashFn encode ct sid d1 o1 t1 c1 st =
      (Except.ok (mkPutMeta sid (generate_version t1 st.gen).1 o1 c1 (hashFn bs) ct
          bs.length (make_data_key sid (hashFn bs))),
        ⟨⟨mapSet st.mem.meta_store (make_meta_key sid (generate_version t1 st.gen).1)
            (mkPutMeta sid (generate_version t1 st.gen).1 o1 c1 (hashFn bs) ct
              bs.length (make_data_key sid (hashFn bs))),
          mapSet st.mem.data_store (make_data_key sid (hashFn bs)) bs⟩,
         (generate_version t1 st.gen).2⟩,
        [Event.data_put sid (generate_version t1 st.gen).1 bs.length false,
         Event.meta_put sid (generate_version t1 st.gen).1,
         Event.snapshot_put sid (generate_version t1 st.gen).1 (hashFn bs) false]) := by
    simp only [store_put, he1, hfresh, Option.isSome_none, Bool.false_eq_true,
      if_false, memory_data_put, memory_meta_put, mkPutMeta]
  have hP : (fun p : String × SnapshotMeta =>
      strStartsWith p.1 (sid ++ ":") && decide (p.2.content_hash = hashFn bs))
        (make_meta_key sid (generate_version t1 st.gen).1,
         mkPutMeta sid (generate_version t1 st.gen).1 o1 c1 (hashFn bs) ct
           bs.length (make_data_key sid (hashFn bs))) = true := by
    simp [strStartsWith_make_meta_key, mkPutMeta]
  have hnone : st.mem.meta_store.find? (fun p =>
      strStartsWith p.1 (sid ++ ":") && decide (p.2.content_hash = hashFn bs)) = none := by
    have h := hfresh
    rw [memory_find_by_hash] at h
    exact Option.map_eq_none'.mp h
  have hfind2 : memory_find_by_hash
      (⟨mapSet st.mem.meta_store (make_meta_key sid (generate_version t1 st.gen).1)
          (mkPutMeta sid (generate_version t1 st.gen).1 o1 c1 (hashFn bs) ct
            bs.length (make_data_key sid (hashFn bs))),
        mapSet st.mem.data_store (make_data_key sid (hashFn bs)) bs⟩ : MemoryState)
      sid (hashFn bs) =
      some (mkPutMeta sid (generate_version t1 st.gen).1 o1 c1 (hashFn bs) ct
        bs.length (make_data_key sid (hashFn bs))) := by
    rw [memory_find_by_hash]
    show (List.find? _ (mapSet st.mem.meta_store _ _)).map _ = _
    rw [find?_mapSet hP hnone]
    rfl
  rw [e1]
  have e2 : store_put hashFn encode ct sid d2 o2 t2 c2
      (⟨⟨mapSet st.mem.meta_store (make_meta_key sid (generate_version t1 st.gen).1)
          (mkPutMeta sid (generate_version t1 st.gen).1 o1 c1 (hashFn bs) ct
            bs.length (make_data_key sid (hashFn bs))),
        mapSet st.mem.data_store (make_data_key sid (hashFn bs)) bs⟩,
       (generate_version t1 st.gen).2⟩ : EngineState) =
      (Except.ok (mkPutMeta sid (generate_version t2 (generate_version t1 st.gen).2).1
          o2 c2 (hashFn bs) ct bs.length (make_data_key sid (hashFn bs))),
        ⟨⟨mapSet (mapSet st.mem.meta_store
              (make_meta_key sid (generate_version t1 st.gen).1)
              (mkPutMeta sid (generate_version t1 st.gen).1 o1 c1 (hashFn bs) ct
                bs.length (make_data_key sid (hashFn bs))))
            (make_meta_key sid (generate_version t2 (generate_version t1 st.gen).2).1)
            (mkPutMeta sid (generate_version t2 (generate_version t1 st.gen).2).1 o2 c2
              (hashFn bs) ct bs.length (make_data_key sid (hashFn bs))),
          mapSet st.mem.data_store (make_data_key sid (hashFn bs)) bs⟩,
         (generate_version t2 (generate_version t1 st.gen).2).2⟩,
        [Event.data_put sid (generate_version t2 (generate_version t1 st.gen).2).1
           bs.length true,
         Event.meta_put sid (generate_version t2 (generate_version t1 st.gen).2).1,
         Event.snapshot_put sid (generate_version t2 (generate_version t1 st.gen).2).1
           (hashFn bs) true]) := by
    simp only [store_put, he2, hfind2, Option.isSome_some, if_true, memory_meta_put,
      mkPutMeta_data_key, mkPutMeta_store_id, mkPutMeta_version]
  rw [e2]
  refine ⟨rfl, rfl, rfl, rfl, ?_, rfl, ?_, ?_, ?_, ?_⟩
  · exact generate_version_ne t1 t2 ht1 ht2 st.gen
  · exact blobCount_fresh_put hblob bs
  · exact mapGet_mapSet_self st.mem.data_store (make_data_key sid (hashFn bs)) bs
  · simp [mkPutMeta_version]
  · simp [mkPutMeta_version]

/-- Witness for C1: two puts of the bytes [1, 2] into the fresh store s,
at milliseconds 1 and 2, with a constant hash function. -/
theorem claim1_put_dedup_witness :
    ∃ m1 m2 : SnapshotMeta,
      (store_put (fun _ => "h") some "b" "s" [1, 2] {} 1 1 ⟨⟨[], []⟩, ⟨0, 0⟩⟩).1 =
          Except.ok m1 ∧
      (store_put (fun _ => "h") some "b" "s" [1, 2] {} 2 2
          (store_put (fun _ => "h") some "b" "s" [1, 2] {} 1 1
            ⟨⟨[], []⟩, ⟨0, 0⟩⟩).2.1).1 = Except.ok m2 ∧
      m1.content_hash = m2.content_hash ∧
      m1.data_key = m2.data_key ∧
      m1.version ≠ m2.version ∧
      (store_put (fun _ => "h") some "b" "s" [1, 2] {} 2 2
          (store_put (fun _ => "h") some "b" "s" [1, 2] {} 1 1
            ⟨⟨[], []⟩, ⟨0, 0⟩⟩).2.1).2.1.mem.data_store =
        (store_put (fun _ => "h") some "b" "s" [1, 2] {} 1 1
          ⟨⟨[], []⟩, ⟨0, 0⟩⟩).2.1.mem.data_store ∧
      blobCount (store_put (fun _ => "h") some "b" "s" [1, 2] {} 2 2
          (store_put (fun _ => "h") some "b" "s" [1, 2] {} 1 1
            ⟨⟨[], []⟩, ⟨0, 0⟩⟩).2.1).2.1.mem m1.data_key = 1 ∧
      mapGet (store_put (fun _ => "h") some "b" "s" [1, 2] {} 2 2
          (store_put (fun _ => "h") some "b" "s" [1, 2] {} 1 1
            ⟨⟨[], []⟩, ⟨0, 0⟩⟩).2.1).2.1.mem.data_store m1.data_key = some [1, 2] ∧
      Event.data_put "s" m1.version [1, 2].length false ∈
        (store_put (fun _ => "h") some "b" "s" [1, 2] {} 1 1
          ⟨⟨[], []⟩, ⟨0, 0⟩⟩).2.2 ∧
      Event.data_put "s" m2.version [1, 2].length true ∈
        (store_put (fun _ => "h") some "b" "s" [1, 2] {} 2 2
          (store_put (fun _ => "h") some "b" "s" [1, 2] {} 1 1
            ⟨⟨[], []⟩, ⟨0, 0⟩⟩).2.1).2.2 :=
  claim1_put_dedup (fun _ => "h") some "b" "s" [1, 2] [1, 2] {} {} [1, 2]
    1 1 2 2 ⟨⟨[], []⟩, ⟨0, 0⟩⟩ rfl rfl (by decide) (by decide) rfl rfl

/-! ## C2: lexicographic monotonicity of generate_version -/

/-- C2 (refuted, code bug): the claim says every earlier version string
compares lexicographically below every later one.  Eleven calls inside the
same millisecond produce the strings AQ, AQ.1, ..., AQ.9, AQ.10, and the
eleventh string AQ.10 compares below the tenth string AQ.9 under the
JavaScript code-unit order, because the suffix comparison is textual, not
numeric.  This contradicts the doc comment of generate_version
(Versions sort lexicographically in chronological order) and the spec. -/
theorem claim2_version_sort_bug :
    ¬ List.Pairwise (fun a b => jsLt a b = true)
        (run_versions (List.replicate 11 1) GenState.init) ∧
    (run_versions (List.replicate 11 1) GenState.init).getD 9 "" = "AQ.9" ∧
    (run_versions (List.replicate 11 1) GenState.init).getD 10 "" = "AQ.10" ∧
    jsLt "AQ.10" "AQ.9" = true ∧ jsLt "AQ.9" "AQ.10" = false := by
  decide

/-! ## C7: apply_span (src/observations/index.ts lines 426-435) -/

/-- apply_span: slice a string by a character span, validating the bounds.
JavaScript numbers may be negative, so the bounds are Int.  For the valid
range the JavaScript slice(start, end) is the characters [start, end). -/
def apply_span (value : String) (start endPos : Int) : CResult String :=
  if start < 0 || endPos > (value.length : Int) || start > endPos then
    Except.error ⟨.validation_error, "", "", ""⟩
  else
    Except.ok (String.mk ((value.data.drop start.toNat).take (endPos - start).toNat))

/-- C7: apply_span returns a validation_error exactly when start < 0 or
end > length or start > end, and otherwise the substring [start, end):
its length is end - start and its i-th character is the (start+i)-th
character of the input.  The three boundary examples of the spec are
included. -/
theorem claim7_apply_span (s : String) (start endPos : Int) :
    ((∃ e, apply_span s start endPos = Except.error e ∧ e.kind = .validation_error) ↔
      (start < 0 ∨ endPos > (s.length : Int) ∨ start > endPos)) ∧
    (¬(start < 0 ∨ endPos > (s.length : Int) ∨ start > endPos) →
      ∃ t, apply_span s start endPos = Except.ok t ∧
        t.data.length = (endPos - start).toNat ∧
        ∀ i : Nat, i < t.data.length → t.data.get? i = s.data.get? (start.toNat + i)) ∧
    apply_span "abc" 0 0 = Except.ok "" ∧
    (∃ e, apply_span "abc" 0 4 = Except.error e ∧ e.kind = .validation_error) ∧
    (∃ e, apply_span "abc" 2 1 = Except.error e ∧ e.kind = .validation_error) := by
  refine ⟨?_, ?_, by decide, ⟨⟨.validation_error, "", "", ""⟩, by decide, rfl⟩,
    ⟨⟨.validation_error, "", "", ""⟩, by decide, rfl⟩⟩
  · constructor
    · rintro ⟨e, he, -⟩
      by_contra hc
      rw [apply_span, if_neg (by simpa [or_assoc] using hc)] at he
      exact absurd he (by simp)
    · intro hc
      exact ⟨_, by rw [apply_span, if_pos (by simpa [or_assoc] using hc)], rfl⟩
  · intro hc
    refine ⟨_, by rw [apply_span, if_neg (by simpa [or_assoc] using hc)], ?_, ?_⟩
    · push_neg at hc
      obtain ⟨h1, h2, h3⟩ := hc
      simp only [List.length_take, List.length_drop]
      have hlen : s.data.length = s.length := rfl
      omega
    · intro i hi
      simp only [List.length_take, List.length_drop] at hi
      rw [List.get?_take (by omega), List.get?_drop]

/-- Witness for C7: the empty span on abc and a proper interior span. -/
theorem claim7_apply_span_witness :
    apply_span "abc" 0 0 = Except.ok "" ∧
    (∃ t, apply_span "abcde" 1 3 = Except.ok t ∧
      t.data.length = ((3 : Int) - 1).toNat ∧
      ∀ i : Nat, i < t.data.length →
        t.data.get? i = "abcde".data.get? ((1 : Int).toNat + i)) :=
  ⟨(claim7_apply_span "abc" 0 0).2.2.1,
   (claim7_apply_span "abcde" 1 3).2.1 (by decide)⟩

/-! ## C4 and C8: metadata list filtering (filter_snapshots, layered list) -/

/-- Options of metadata list (src/types.ts ListOpts).  Instants are Nat
millisecond timestamps; limit is a non-negative JavaScript number. -/
structure ListOpts where
  before : Option Nat := none
  after : Option Nat := none
  tags : Option (List String) := none
  limit : Option Nat := none
deriving DecidableEq, Repr

/-- Insert into a le-sorted list, before the first element the new element
may precede.  Used to model JavaScript Array.prototype.sort: the sort is a
stable comparator sort, and a stable sort's output is unique, so insertion
sort gives exactly its result while staying kernel-computable. -/
def insertLe {α : Type} (le : α → α → Bool) (x : α) : List α → List α
  | [] => [x]
  | y :: ys => if le x y then x :: y :: ys else y :: insertLe le x ys

/-- Stable insertion sort by a boolean comparator relation le, where
le a b means a may come before b. -/
def sortByLe {α : Type} (le : α → α → Bool) : List α → List α
  | [] => []
  | x :: xs => insertLe le x (sortByLe le xs)

theorem mem_insertLe {α : Type} {le : α → α → Bool} {x a : α} :
    ∀ {l : List α}, a ∈ insertLe le x l ↔ a = x ∨ a ∈ l
  | [] => by simp [insertLe]
  | y :: ys => by
      rw [insertLe]
      by_cases h : le x y
      · simp [h]
      · rw [if_neg h]
        simp only [List.mem_cons, mem_insertLe (l := ys)]
        tauto

theorem mem_sortByLe {α : Type} {le : α → α → Bool} {a : α} :
    ∀ {l : List α}, a ∈ sortByLe le l ↔ a ∈ l
  | [] => Iff.rfl
  | x :: xs => by
      rw [sortByLe, mem_insertLe, mem_sortByLe (l := xs)]
      simp

theorem length_insertLe {α : Type} {le : α → α → Bool} {x : α} :
    ∀ l : List α, (insertLe le x l).length = l.length + 1
  | [] => rfl
  | y :: ys => by
      rw [insertLe]
      by_cases h : le x y
      · simp [h]
      · rw [if_neg h]
        simp [length_insertLe ys]

theorem length_sortByLe {α : Type} {le : α → α → Bool} :
    ∀ l : List α, (sortByLe le l).length = l.length
  | [] => rfl
  | x :: xs => by rw [sortByLe, length_insertLe, length_sortByLe xs, List.length_cons]

theorem pairwise_insertLe {α : Type} {le : α → α → Bool}
    (htotal : ∀ a b, (le a b || le b a) = true)
    (htrans : ∀ a b c, le a b = true → le b c = true → le a c = true) (x : α) :
    ∀ {l : List α}, List.Pairwise (fun a b => le a b = true) l →
      List.Pairwise (fun a b => le a b = true) (insertLe le x l)
  | [], _ => by simp [insertLe]
  | y :: ys, h => by
      rw [List.pairwise_cons] at h
      rw [insertLe]
      by_cases hxy : le x y
      · rw [if_pos hxy, List.pairwise_cons]
        refine ⟨?_, List.pairwise_cons.mpr h⟩
        intro z hz
        rcases List.mem_cons.mp hz with rfl | hz
        · exact hxy
        · exact htrans x y z hxy (h.1 z hz)
      · rw [if_neg hxy, List.pairwise_cons]
        have hyx : le y x = true := by
          have := htotal x y
          simp only [Bool.or_eq_true] at this
          rcases this with h1 | h1
          · exact absurd h1 hxy
          · exact h1
        refine ⟨?_, pairwise_insertLe htotal htrans x h.2⟩
        intro z hz
        rcases mem_insertLe.mp hz with rfl | hz
        · exact hyx
        · exact h.1 z hz

theorem pairwise_sortByLe {α : Type} {le : α → α → Bool}
    (htotal : ∀ a b, (le a b || le b a) = true)
    (htrans : ∀ a b c, le a b = true → le b c = true → le a c = true) :
    ∀ l : List α, List.Pairwise (fun a b => le a b = true) (sortByLe le l)
  | [] => List.Pairwise.nil
  | x :: xs => pairwise_insertLe htotal htrans x (pairwise_sortByLe htotal htrans xs)

/-- The before filter: applied only when opts.before is present (a Date,
always truthy); strict less-than. -/
def stage_before (o : Option Nat) (l : List SnapshotMeta) : List SnapshotMeta :=
  match o with
  | some b => l.filter (fun m => m.created_at < b)
  | none => l

/-- The after filter: strict greater-than. -/
def stage_after (o : Option Nat) (l : List SnapshotMeta) : List SnapshotMeta :=
  match o with
  | some a => l.filter (fun m => a < m.created_at)
  | none => l

/-- The tags filter: applied when opts.tags is present and non-empty;
every requested tag must be contained in the meta's tags (AND semantics);
a meta with no tags field fails every requested tag. -/
def stage_tags (o : Option (List String)) (l : List SnapshotMeta) : List SnapshotMeta :=
  match o with
  | some ts =>
      if ts.length > 0 then
        l.filter (fun m => ts.all (fun t => (m.tags.getD []).contains t))
      else l
  | none => l

/-- The limit stage: the source guards it with the truthiness test
if (opts.limit), so a present limit of 0 is ignored. -/
def stage_limit (o : Option Nat) (l : List SnapshotMeta) : List SnapshotMeta :=
  match o with
  | some n => if n ≠ 0 then l.take n else l
  | none => l

/-- filter_snapshots (src/unnamed/part_000 lines 236-262): before, after
and tags filters, stable sort by created_at descending, then the limit. -/
def filter_snapshots (metas : List SnapshotMeta) (opts : ListOpts) : List SnapshotMeta :=
  stage_limit opts.limit
    (sortByLe (fun a b => b.created_at ≤ a.created_at)
      (stage_tags opts.tags (stage_after opts.after (stage_before opts.before metas))))

/-- Version dedup of the layered merge list: first occurrence wins. -/
def dedupVersions (seen : List String) : List SnapshotMeta → List SnapshotMeta
  | [] => []
  | m :: rest =>
      if m.version ∈ seen then dedupVersions seen rest
      else m :: dedupVersions (m.version :: seen) rest

/-- The merge strategy of the layered backend's metadata.list
(src/backend/layered.ts lines 80-107): gather every page of every read
backend in order, deduplicate by version, sort by created_at descending,
then slice(0, limit) with limit defaulting to infinity.  Unlike
filter_snapshots this path applies a present limit of 0. -/
def layered_list_merge (pages : List (List SnapshotMeta)) (opts : ListOpts) :
    List SnapshotMeta :=
  let sorted := sortByLe (fun a b => b.created_at ≤ a.created_at)
    (dedupVersions [] pages.flatten)
  match opts.limit with
  | some l => sorted.take l
  | none => sorted

theorem stage_before_mem {o : Option Nat} {l : List SnapshotMeta} {m : SnapshotMeta}
    (h : m ∈ stage_before o l) : m ∈ l ∧ ∀ b, o = some b → m.created_at < b := by
  cases o with
  | none => exact ⟨h, by simp⟩
  | some b =>
      rw [stage_before] at h
      have hf := List.mem_filter.mp h
      refine ⟨hf.1, ?_⟩
      intro b' hb'
      cases hb'
      simpa using hf.2

theorem stage_after_mem {o : Option Nat} {l : List SnapshotMeta} {m : SnapshotMeta}
    (h : m ∈ stage_after o l) : m ∈ l ∧ ∀ a, o = some a → a < m.created_at := by
  cases o with
  | none => exact ⟨h, by simp⟩
  | some a =>
      rw [stage_after] at h
      have hf := List.mem_filter.mp h
      refine ⟨hf.1, ?_⟩
      intro a' ha'
      cases ha'
      simpa using hf.2

theorem stage_tags_mem {o : Option (List String)} {l : List SnapshotMeta}
    {m : SnapshotMeta} (h : m ∈ stage_tags o l) :
    m ∈ l ∧ ∀ ts, o = some ts → ts ≠ [] → ∀ t ∈ ts, t ∈ m.tags.getD [] := by
  cases o with
  | none => exact ⟨h, by simp⟩
  | some ts =>
      rw [stage_tags] at h
      by_cases hts : ts.length > 0
      · rw [if_pos hts] at h
        have hf := List.mem_filter.mp h
        refine ⟨hf.1, ?_⟩
        intro ts' hts' _
        cases hts'
        intro t ht
        have := List.all_eq_true.mp hf.2 t ht
        simpa [List.contains_iff_exists_mem_beq, List.mem_iff_get] using this
      · rw [if_neg hts] at h
        refine ⟨h, ?_⟩
        intro ts' hts' hne
        cases hts'
        exact absurd (by simpa using hts) hne

theorem stage_limit_sublist (o : Option Nat) (l : List SnapshotMeta) :
    (stage_limit o l).Sublist l := by
  cases o with
  | none => exact List.Sublist.refl l
  | some n =>
      rw [stage_limit]
      by_cases hn : n ≠ 0
      · rw [if_pos hn]
        exact List.take_sublist n l
      · rw [if_neg hn]

/-- C4 (amended: a present limit of 0 is ignored by the truthiness guard,
so the length bound holds for positive limits): list results are ordered by
created_at descending, capped by a positive limit, and every yielded meta
comes from the input and satisfies the strict time bounds and the AND tags
filter. -/
theorem claim4_list_filter_amended (metas : List SnapshotMeta) (opts : ListOpts) :
    List.Pairwise (fun a b => b.created_at ≤ a.created_at)
      (filter_snapshots metas opts) ∧
    (∀ l, opts.limit = some l → 0 < l → (filter_snapshots metas opts).length ≤ l) ∧
    (∀ m ∈ filter_snapshots metas opts,
      m ∈ metas ∧
      (∀ b, opts.before = some b → m.created_at < b) ∧
      (∀ a, opts.after = some a → a < m.created_at) ∧
      (∀ ts, opts.tags = some ts → ts ≠ [] → ∀ t ∈ ts, t ∈ m.tags.getD [])) := by
  have htrans : ∀ a b c : SnapshotMeta,
      (fun a b : SnapshotMeta => decide (b.created_at ≤ a.created_at)) a b = true →
      (fun a b : SnapshotMeta => decide (b.created_at ≤ a.created_at)) b c = true →
      (fun a b : SnapshotMeta => decide (b.created_at ≤ a.created_at)) a c = true := by
    intro a b c h1 h2
    simp only [decide_eq_true_eq] at *
    omega
  have htotal : ∀ a b : SnapshotMeta,
      ((fun a b : SnapshotMeta => decide (b.created_at ≤ a.created_at)) a b ||
       (fun a b : SnapshotMeta => decide (b.created_at ≤ a.created_at)) b a) = true := by
    intro a b
    simp only [Bool.or_eq_true, decide_eq_true_eq]
    omega
  have hsorted := pairwise_sortByLe htotal htrans
    (stage_tags opts.tags (stage_after opts.after (stage_before opts.before metas)))
  refine ⟨?_, ?_, ?_⟩
  · rw [filter_snapshots]
    exact List.Pairwise.sublist (stage_limit_sublist _ _)
      (hsorted.imp (by intro a b h; simpa using h))
  · intro l hl hpos
    rw [filter_snapshots, hl, stage_limit, if_pos (by omega)]
    simpa using Nat.le_of_lt_succ (Nat.lt_succ_of_le (List.length_take_le l _))
  · intro m hm
    rw [filter_snapshots] at hm
    have hm2 := (stage_limit_sublist _ _).mem hm
    rw [mem_sortByLe] at hm2
    have h3 := stage_tags_mem hm2
    have h2 := stage_after_mem h3.1
    have h1 := stage_before_mem h2.1
    exact ⟨h1.1, h1.2, h2.2, h3.2⟩

/-- Counterexample to C4 as stated: with limit 0 given, a one-element store
yields one row, so the length bound length at most limit fails. -/
theorem claim4_counterexample :
    ¬((filter_snapshots
        [{ store_id := "s", version := "v", parents := [], created_at := 0,
           content_hash := "", content_type := "", size_bytes := 0,
           data_key := "" }]
        ⟨none, none, none, some 0⟩).length ≤ 0) := by decide

/-- Witness for C4's amended theorem at a concrete input. -/
theorem claim4_list_filter_amended_witness :
    List.Pairwise (fun a b => b.created_at ≤ a.created_at)
      (filter_snapshots
        [{ store_id := "s", version := "v", parents := [], created_at := 3,
           content_hash := "", content_type := "", size_bytes := 0,
           data_key := "" }]
        ⟨some 5, none, none, some 1⟩) ∧
    (filter_snapshots
      [{ store_id := "s", version := "v", parents := [], created_at := 3,
         content_hash := "", content_type := "", size_bytes := 0,
         data_key := "" }]
      ⟨some 5, none, none, some 1⟩).length ≤ 1 :=
  ⟨(claim4_list_filter_amended _ _).1,
   (claim4_list_filter_amended _ _).2.1 1 rfl (by decide)⟩

/-- C8 (amended): filter_snapshots-based lists (memory, file, base client)
ignore a limit of 0 because of the truthiness guard and yield every
filtered row, while the layered merge list applies slice(0, 0) and yields
nothing. -/
theorem claim8_limit_zero_amended :
    (∀ (metas : List SnapshotMeta) (b a : Option Nat) (ts : Option (List String)),
      filter_snapshots metas ⟨b, a, ts, some 0⟩ =
        filter_snapshots metas ⟨b, a, ts, none⟩) ∧
    (∀ (pages : List (List SnapshotMeta)) (b a : Option Nat)
        (ts : Option (List String)),
      layered_list_merge pages ⟨b, a, ts, some 0⟩ = []) := by
  constructor
  · intro metas b a ts
    rw [filter_snapshots, filter_snapshots]
    rfl
  · intro pages b a ts
    rw [layered_list_merge]
    simp

/-- Counterexample to C8 as stated: metadata list with limit 0 over
filter_snapshots yields the whole store, not the empty sequence. -/
theorem claim8_counterexample :
    filter_snapshots
      [{ store_id := "s", version := "w", parents := [], created_at := 1,
         content_hash := "", content_type := "", size_bytes := 0,
         data_key := "" }]
      ⟨none, none, none, some 0⟩ ≠ [] := by decide

/-! ## C5: layered backend read-fallback and write-fanout
(src/backend/layered.ts)

A backend's operation is modelled as a function returning a CResult; the
layered loops iterate the configured lists in order. -/

/-- Layered metadata.get (lines 55-62): first success wins, not_found
falls through, any other error short-circuits, exhaustion (or an empty
read list) is not_found. -/
def layered_meta_get (read : List (String → String → CResult SnapshotMeta))
    (sid v : String) : CResult SnapshotMeta :=
  match read with
  | [] => Except.error ⟨.not_found, sid, v, ""⟩
  | b :: rest =>
      match b sid v with
      | Except.ok m => Except.ok m
      | Except.error e =>
          if e.kind = .not_found then layered_meta_get rest sid v
          else Except.error e

/-- Layered data.get (lines 152-159): same fallback; the not_found error
carries the data key in the store_id field, as in the source. -/
def layered_data_get (read : List (String → CResult (List Nat)))
    (k : String) : CResult (List Nat) :=
  match read with
  | [] => Except.error ⟨.not_found, k, "", ""⟩
  | b :: rest =>
      match b k with
      | Except.ok h => Except.ok h
      | Except.error e =>
          if e.kind = .not_found then layered_data_get rest k
          else Except.error e

/-- Layered metadata.put (lines 64-70): fan out in order, first failure
short-circuits, empty write list returns ok. -/
def layered_meta_put (write : List (SnapshotMeta → CResult Unit))
    (meta : SnapshotMeta) : CResult Unit :=
  match write with
  | [] => Except.ok ()
  | b :: rest =>
      match b meta with
      | Except.ok _ => layered_meta_put rest meta
      | Except.error e => Except.error e

/-- Layered metadata.delete (lines 72-78): fan out, per-backend not_found
is ignored, other failures short-circuit, empty list returns ok. -/
def layered_meta_delete (write : List (String → String → CResult Unit))
    (sid v : String) : CResult Unit :=
  match write with
  | [] => Except.ok ()
  | b :: rest =>
      match b sid v with
      | Except.ok _ => layered_meta_delete rest sid v
      | Except.error e =>
          if e.kind = .not_found then layered_meta_delete rest sid v
          else Except.error e

/-- Layered data.put (lines 161-174) on byte input: empty write list
returns ok, otherwise sequential fan-out with first-failure
short-circuit (the single-backend fast path and the stream buffering
coincide with this on byte input, since to_bytes is the identity there). -/
def layered_data_put (write : List (String → List Nat → CResult Unit))
    (k : String) (bytes : List Nat) : CResult Unit :=
  match write with
  | [] => Except.ok ()
  | b :: rest =>
      match b k bytes with
      | Except.ok _ => layered_data_put rest k bytes
      | Except.error e => Except.error e

/-- Layered data.delete (lines 176-182): like metadata.delete. -/
def layered_data_delete (write : List (String → CResult Unit))
    (k : String) : CResult Unit :=
  match write with
  | [] => Except.ok ()
  | b :: rest =>
      match b k with
      | Except.ok _ => layered_data_delete rest k
      | Except.error e =>
          if e.kind = .not_found then layered_data_delete rest k
          else Except.error e

/-- C5: read-fallback semantics of the layered backend (first success
wins, not_found continues, other errors short-circuit, all-not_found or an
empty read list yields not_found, for both metadata.get and data.get), and
every write operation with an empty write list returns Ok. -/
theorem claim5_layered_semantics :
    (∀ sid v, layered_meta_get [] sid v = Except.error ⟨.not_found, sid, v, ""⟩) ∧
    (∀ b rest sid v m, b sid v = Except.ok m →
      layered_meta_get (b :: rest) sid v = Except.ok m) ∧
    (∀ b rest sid v e, b sid v = Except.error e → e.kind ≠ .not_found →
      layered_meta_get (b :: rest) sid v = Except.error e) ∧
    (∀ b rest sid v e, b sid v = Except.error e → e.kind = .not_found →
      layered_meta_get (b :: rest) sid v = layered_meta_get rest sid v) ∧
    (∀ read sid v, (∀ b ∈ read, ∃ e, b sid v = Except.error e ∧ e.kind = .not_found) →
      layered_meta_get read sid v = Except.error ⟨.not_found, sid, v, ""⟩) ∧
    (∀ k, layered_data_get [] k = Except.error ⟨.not_found, k, "", ""⟩) ∧
    (∀ b rest k h, b k = Except.ok h → layered_data_get (b :: rest) k = Except.ok h) ∧
    (∀ b rest k e, b k = Except.error e → e.kind ≠ .not_found →
      layered_data_get (b :: rest) k = Except.error e) ∧
    (∀ b rest k e, b k = Except.error e → e.kind = .not_found →
      layered_data_get (b :: rest) k = layered_data_get rest k) ∧
    (∀ read k, (∀ b ∈ read, ∃ e, b k = Except.error e ∧ e.kind = .not_found) →
      layered_data_get read k = Except.error ⟨.not_found, k, "", ""⟩) ∧
    (∀ meta, layered_meta_put [] meta = Except.ok ()) ∧
    (∀ sid v, layered_meta_delete [] sid v = Except.ok ()) ∧
    (∀ k bytes, layered_data_put [] k bytes = Except.ok ()) ∧
    (∀ k, layered_data_delete [] k = Except.ok ()) := by
  refine ⟨fun _ _ => rfl, ?_, ?_, ?_, ?_, fun _ => rfl, ?_, ?_, ?_, ?_,
    fun _ => rfl, fun _ _ => rfl, fun _ _ => rfl, fun _ => rfl⟩
  · intro b rest sid v m hb
    rw [layered_meta_get, hb]
  · intro b rest sid v e hb he
    rw [layered_meta_get, hb]
    simp [he]
  · intro b rest sid v e hb he
    rw [layered_meta_get, hb]
    simp [he]
  · intro read sid v
    induction read with
    | nil => intro _; rfl
    | cons b rest ih =>
        intro h
        obtain ⟨e, hb, he⟩ := h b (by simp)
        rw [layered_meta_get, hb]
        show (if e.kind = ErrKind.not_found then layered_meta_get rest sid v
          else Except.error e) = _
        rw [if_pos he]
        exact ih (fun b' hb' => h b' (by simp [hb']))
  · intro b rest k h hb
    rw [layered_data_get, hb]
  · intro b rest k e hb he
    rw [layered_data_get, hb]
    simp [he]
  · intro b rest k e hb he
    rw [layered_data_get, hb]
    simp [he]
  · intro read k
    induction read with
    | nil => intro _; rfl
    | cons b rest ih =>
        intro h
        obtain ⟨e, hb, he⟩ := h b (by simp)
        rw [layered_data_get, hb]
        show (if e.kind = ErrKind.not_found then layered_data_get rest k
          else Except.error e) = _
        rw [if_pos he]
        exact ih (fun b' hb' => h b' (by simp [hb']))

/-- A small concrete SnapshotMeta used by witnesses and counterexamples. -/
def sampleMeta (ver : String) (created : Nat) : SnapshotMeta :=
  { store_id := "s", version := ver, parents := [], created_at := created,
    content_hash := "", content_type := "", size_bytes := 0, data_key := "" }

/-- Witness for C5 at concrete two-backend read lists and empty writes. -/
theorem claim5_layered_semantics_witness :
    layered_meta_get [] "s" "v" = Except.error ⟨.not_found, "s", "v", ""⟩ ∧
    layered_meta_get
      [fun _ _ => Except.error ⟨.not_found, "s", "v", ""⟩,
       fun _ _ => Except.ok (sampleMeta "v" 0)] "s" "v" =
      Except.ok (sampleMeta "v" 0) ∧
    layered_meta_get
      [fun _ _ => Except.error ⟨.storage_error, "", "", ""⟩,
       fun _ _ => Except.ok (sampleMeta "v" 0)] "s" "v" =
      Except.error ⟨.storage_error, "", "", ""⟩ ∧
    layered_meta_get
      [fun _ _ => Except.error ⟨.not_found, "a", "", ""⟩,
       fun _ _ => Except.error ⟨.not_found, "b", "", ""⟩] "s" "v" =
      Except.error ⟨.not_found, "s", "v", ""⟩ ∧
    layered_meta_put [] (sampleMeta "v" 0) = Except.ok () ∧
    layered_data_put [] "k" [1] = Except.ok () := by
  have h := claim5_layered_semantics
  refine ⟨h.1 "s" "v", ?_, ?_, ?_, h.2.2.2.2.2.2.2.2.2.2.1 _,
    h.2.2.2.2.2.2.2.2.2.2.2.2.1 "k" [1]⟩
  · rw [h.2.2.2.1 _ _ "s" "v" ⟨.not_found, "s", "v", ""⟩ rfl rfl]
    exact h.2.1 _ [] "s" "v" _ rfl
  · exact h.2.2.1 _ _ "s" "v" ⟨.storage_error, "", "", ""⟩ rfl (by decide)
  · refine h.2.2.2.2.1 _ "s" "v" ?_
    intro b hb
    rcases List.mem_cons.mp hb with rfl | hb
    · exact ⟨⟨.not_found, "a", "", ""⟩, rfl, rfl⟩
    · rcases List.mem_cons.mp hb with rfl | hb
      · exact ⟨⟨.not_found, "b", "", ""⟩, rfl, rfl⟩
      · exact absurd hb (List.not_mem_nil b)

/-! ## C6: get_latest (src/backend/memory.ts lines 223-238) -/

/-- Characterization of the get_latest fold from a current best a: the
result is either a (when nothing in the list strictly exceeds it) or the
first element of the list that strictly exceeds a and everything since. -/
theorem foldl_latestPick_some (a : SnapshotMeta) :
    ∀ l : List SnapshotMeta, ∃ m, l.foldl latestPick (some a) = some m ∧
      ((m = a ∧ ∀ x ∈ l, x.created_at ≤ a.created_at) ∨
       (∃ pre post, l = pre ++ m :: post ∧ a.created_at < m.created_at ∧
         (∀ x ∈ pre, x.created_at < m.created_at) ∧
         (∀ x ∈ post, x.created_at ≤ m.created_at)))
  | [] => ⟨a, rfl, Or.inl ⟨rfl, by simp⟩⟩
  | x :: rest => by
      by_cases hax : a.created_at < x.created_at
      · have step : latestPick (some a) x = some x := by
          rw [latestPick, if_pos hax]
        obtain ⟨m, hm, hcase⟩ := foldl_latestPick_some x rest
        refine ⟨m, ?_, ?_⟩
        · rw [List.foldl_cons, step, hm]
        · rcases hcase with ⟨rfl, hall⟩ | ⟨pre, post, hsplit, hxm, hpre, hpost⟩
          · exact Or.inr ⟨[], rest, rfl, hax, by simp, hall⟩
          · refine Or.inr ⟨x :: pre, post, by rw [hsplit]; rfl, by omega, ?_, hpost⟩
            intro y hy
            rcases List.mem_cons.mp hy with rfl | hy
            · omega
            · exact hpre y hy
      · have step : latestPick (some a) x = some a := by
          rw [latestPick, if_neg hax]
        obtain ⟨m, hm, hcase⟩ := foldl_latestPick_some a rest
        refine ⟨m, ?_, ?_⟩
        · rw [List.foldl_cons, step, hm]
        · rcases hcase with ⟨rfl, hall⟩ | ⟨pre, post, hsplit, ham, hpre, hpost⟩
          · refine Or.inl ⟨rfl, ?_⟩
            intro y hy
            rcases List.mem_cons.mp hy with rfl | hy
            · omega
            · exact hall y hy
          · refine Or.inr ⟨x :: pre, post, by rw [hsplit]; rfl, ham, ?_, hpost⟩
            intro y hy
            rcases List.mem_cons.mp hy with rfl | hy
            · omega
            · exact hpre y hy

/-- C6 (amended: get_latest returns the first row, in Map iteration order,
whose created_at attains the maximum; ties in created_at are broken by
iteration order, not by version): for a store with at least one row,
get_latest returns a row of the store with maximal created_at, and every
row listed before it is strictly older. -/
theorem claim6_get_latest_amended (st : MemoryState) (sid : String)
    (h : memory_meta_rows st sid ≠ []) :
    ∃ m, memory_get_latest st sid = Except.ok m ∧
      m ∈ memory_meta_rows st sid ∧
      (∀ x ∈ memory_meta_rows st sid, x.created_at ≤ m.created_at) ∧
      ∃ pre post, memory_meta_rows st sid = pre ++ m :: post ∧
        ∀ x ∈ pre, x.created_at < m.created_at := by
  obtain ⟨y, ys, hrows⟩ : ∃ y ys, memory_meta_rows st sid = y :: ys := by
    cases hr : memory_meta_rows st sid with
    | nil => exact absurd hr h
    | cons y ys => exact ⟨y, ys, rfl⟩
  obtain ⟨m, hfold, hcase⟩ := foldl_latestPick_some y ys
  have hfold2 : (memory_meta_rows st sid).foldl latestPick none = some m := by
    rw [hrows, List.foldl_cons]
    exact hfold
  refine ⟨m, ?_, ?_, ?_, ?_⟩
  · rw [memory_get_latest, hfold2]
  · rw [hrows]
    rcases hcase with ⟨rfl, -⟩ | ⟨pre, post, hsplit, -, -, -⟩
    · simp
    · rw [hsplit]
      simp
  · intro x hx
    rw [hrows] at hx
    rcases hcase with ⟨rfl, hall⟩ | ⟨pre, post, hsplit, hym, hpre, hpost⟩
    · rcases List.mem_cons.mp hx with rfl | hx
      · omega
      · exact hall x hx
    · rw [hsplit] at hx
      rcases List.mem_cons.mp hx with rfl | hx
      · omega
      · rcases List.mem_append.mp hx with hx | hx
        · exact Nat.le_of_lt (hpre x hx)
        · rcases List.mem_cons.mp hx with rfl | hx
          · omega
          · exact hpost x hx
  · rcases hcase with ⟨rfl, hall⟩ | ⟨pre, post, hsplit, hym, hpre, hpost⟩
    · exact ⟨[], ys, hrows, by simp⟩
    · refine ⟨y :: pre, post, by rw [hrows, hsplit]; rfl, ?_⟩
      intro x hx
      rcases List.mem_cons.mp hx with rfl | hx
      · omega
      · exact hpre x hx

/-- Counterexample to C6 as stated: two rows of store s share the maximal
created_at 5; the row with version a was inserted first and is returned,
although version b is the greater version, so the (created_at, version)
maximum claim fails. -/
theorem claim6_counterexample :
    memory_get_latest
      ⟨[("s:a", sampleMeta "a" 5), ("s:b", sampleMeta "b" 5)], []⟩ "s" =
      Except.ok (sampleMeta "a" 5) ∧
    (sampleMeta "a" 5).created_at = (sampleMeta "b" 5).created_at ∧
    jsLt (sampleMeta "a" 5).version (sampleMeta "b" 5).version = true ∧
    sampleMeta "a" 5 ≠ sampleMeta "b" 5 := by decide

/-- Witness for C6's amended theorem on a two-row store. -/
theorem claim6_get_latest_amended_witness :
    ∃ m, memory_get_latest
        ⟨[("s:a", sampleMeta "a" 3), ("s:b", sampleMeta "b" 7)], []⟩ "s" =
        Except.ok m ∧
      m ∈ memory_meta_rows
        ⟨[("s:a", sampleMeta "a" 3), ("s:b", sampleMeta "b" 7)], []⟩ "s" ∧
      (∀ x ∈ memory_meta_rows
        ⟨[("s:a", sampleMeta "a" 3), ("s:b", sampleMeta "b" 7)], []⟩ "s",
        x.created_at ≤ m.created_at) ∧
      ∃ pre post, memory_meta_rows
          ⟨[("s:a", sampleMeta "a" 3), ("s:b", sampleMeta "b" 7)], []⟩ "s" =
          pre ++ m :: post ∧
        ∀ x ∈ pre, x.created_at < m.created_at :=
  claim6_get_latest_amended
    ⟨[("s:a", sampleMeta "a" 3), ("s:b", sampleMeta "b" 7)], []⟩ "s" (by decide)

/-! ## C9: delete removes metadata only (src/corpus.ts lines 137-150) -/

/-- C9: for an existing snapshot, delete removes exactly the metadata entry
for (store_id, version); the data Map, including the blob under the meta's
data_key, is untouched, and every other metadata entry is preserved. -/
theorem claim9_delete_frame (st : MemoryState) (sid v : String) (m : SnapshotMeta)
    (h : memory_meta_get st sid v = some m) :
    (store_delete sid v st).1 = Except.ok () ∧
    (store_delete sid v st).2.1.data_store = st.data_store ∧
    mapGet (store_delete sid v st).2.1.data_store m.data_key =
      mapGet st.data_store m.data_key ∧
    memory_meta_get (store_delete sid v st).2.1 sid v = none ∧
    (∀ sid' v', make_meta_key sid' v' ≠ make_meta_key sid v →
      memory_meta_get (store_delete sid v st).2.1 sid' v' =
        memory_meta_get st sid' v') := by
  have e1 : store_delete sid v st =
      (Except.ok (), memory_meta_delete st sid v,
        [Event.meta_get sid v true, Event.meta_delete sid v,
         Event.meta_delete sid v]) := by
    rw [store_delete, h]
  rw [e1]
  refine ⟨rfl, rfl, rfl, ?_, ?_⟩
  · rw [memory_meta_get, memory_meta_delete]
    exact mapGet_mapDelete_self st.meta_store (make_meta_key sid v)
  · intro sid' v' hk
    rw [memory_meta_get, memory_meta_get, memory_meta_delete]
    exact mapGet_mapDelete_other st.meta_store (make_meta_key sid v)
      (make_meta_key sid' v') hk

/-- Witness for C9 on a two-snapshot store with one blob. -/
theorem claim9_delete_frame_witness :
    (store_delete "s" "a"
      ⟨[("s:a", sampleMeta "a" 1), ("s:b", sampleMeta "b" 2)],
       [("s/", [7])]⟩).1 = Except.ok () ∧
    (store_delete "s" "a"
      ⟨[("s:a", sampleMeta "a" 1), ("s:b", sampleMeta "b" 2)],
       [("s/", [7])]⟩).2.1.data_store = [("s/", [7])] ∧
    mapGet (store_delete "s" "a"
      ⟨[("s:a", sampleMeta "a" 1), ("s:b", sampleMeta "b" 2)],
       [("s/", [7])]⟩).2.1.data_store (sampleMeta "a" 1).data_key =
      mapGet [("s/", [7])] (sampleMeta "a" 1).data_key ∧
    memory_meta_get (store_delete "s" "a"
      ⟨[("s:a", sampleMeta "a" 1), ("s:b", sampleMeta "b" 2)],
       [("s/", [7])]⟩).2.1 "s" "a" = none ∧
    memory_meta_get (store_delete "s" "a"
      ⟨[("s:a", sampleMeta "a" 1), ("s:b", sampleMeta "b" 2)],
       [("s/", [7])]⟩).2.1 "s" "b" = some (sampleMeta "b" 2) := by
  have h := claim9_delete_frame
    ⟨[("s:a", sampleMeta "a" 1), ("s:b", sampleMeta "b" 2)], [("s/", [7])]⟩
    "s" "a" (sampleMeta "a" 1) (by decide)
  refine ⟨h.1, h.2.1, h.2.2.1, h.2.2.2.1, ?_⟩
  rw [h.2.2.2.2 "s" "b" (by decide)]
  decide

/-- An observation row as stored by the backends
(src/observations/schema.ts corpus_observations).  Timestamps are ISO-8601
strings at this layer; content and derived_from are JSON text; the
confidence number is carried opaquely (never inspected), modelled as Int. -/
structure ObservationRow where
  id : String
  type : String
  source_store_id : String
  source_version : String
  source_path : Option String := none
  source_span_start : Option String := none
  source_span_end : Option String := none
  content : String
  confidence : Option Int := none
  observed_at : Option String := none
  created_at : String
  derived_from : Option String := none
deriving DecidableEq, Repr

/-! ## C10: layered observations delete and get
(src/backend/layered.ts lines 201-268)

A layer that supports observations is modelled by its observation Map;
readLayers carries an Option per layer because a backend may lack the
observations client. -/

/-- One layer's observations delete, as composed from the memory adapter's
remove_one and the client's not-found translation
(src/observations/index.ts lines 132-141 over src/backend/memory.ts):
returns ok when the row existed, observation_not_found otherwise, and
removes the row either way. -/
def mem_obs_delete (store : List (String × ObservationRow)) (id : String) :
    CResult Unit × List (String × ObservationRow) :=
  if mapHas store id then (Except.ok (), mapDelete store id)
  else (Except.error ⟨.observation_not_found, "", "", id⟩, mapDelete store id)

/-- One layer's observations get through the client: observation_not_found
when the row is absent. -/
def mem_obs_get (store : List (String × ObservationRow)) (id : String) :
    CResult ObservationRow :=
  match mapGet store id with
  | some r => Except.ok r
  | none => Except.error ⟨.observation_not_found, "", "", id⟩

/-- The fan-out loop of the layered delete (lines 244-253): every
observation-capable write layer is called, whatever the earlier results
were, and only the last result is kept. -/
def layered_obs_delete_go (id : String) :
    List (List (String × ObservationRow)) →
      CResult Unit × List (List (String × ObservationRow))
  | [] => (Except.error ⟨.observation_not_found, "", "", id⟩, [])
  | [l] =>
      let r := mem_obs_delete l id
      (r.1, [r.2])
  | l :: rest =>
      let r0 := mem_obs_delete l id
      let r := layered_obs_delete_go id rest
      (r.1, r0.2 :: r.2)

/-- Layered observations delete over the observation-capable write layers:
with none, observation_not_found without touching anything. -/
def layered_obs_delete (writeObs : List (List (String × ObservationRow)))
    (id : String) : CResult Unit × List (List (String × ObservationRow)) :=
  match writeObs with
  | [] => (Except.error ⟨.observation_not_found, "", "", id⟩, [])
  | ls => layered_obs_delete_go id ls

/-- Layered observations get: route to the first read layer that exposes
observations; with none, observation_not_found. -/
def layered_obs_get (readObs : List (Option (List (String × ObservationRow))))
    (id : String) : CResult ObservationRow :=
  match readObs.findSome? (fun o => o) with
  | some store => mem_obs_get store id
  | none => Except.error ⟨.observation_not_found, "", "", id⟩

/-- C10: layered observations delete calls every observation-capable write
layer regardless of earlier failures (each layer's row is removed) and
returns only the last layer's result; with no such write layer it returns
observation_not_found; and get with no observation-capable read layer
returns observation_not_found. -/
theorem claim10_layered_observations :
    (∀ ls l id, ls.getLast? = some l →
      (layered_obs_delete ls id).1 = (mem_obs_delete l id).1) ∧
    (∀ ls id, (layered_obs_delete ls id).2 =
      ls.map (fun l => mapDelete l id)) ∧
    (∀ id, (layered_obs_delete [] id).1 =
      Except.error ⟨.observation_not_found, "", "", id⟩) ∧
    (∀ ros id, (∀ o ∈ ros, o = none) →
      layered_obs_get ros id =
        Except.error ⟨.observation_not_found, "", "", id⟩) := by
  have hgo_fst : ∀ id ls l, ls.getLast? = some l →
      (layered_obs_delete_go id ls).1 = (mem_obs_delete l id).1 := by
    intro id ls
    induction ls with
    | nil => intro l hl; simp at hl
    | cons x rest ih =>
        intro l hl
        cases rest with
        | nil =>
            simp only [List.getLast?_singleton, Option.some.injEq] at hl
            rw [← hl, layered_obs_delete_go]
        | cons y rest2 =>
            rw [List.getLast?_cons_cons] at hl
            show (layered_obs_delete_go id (y :: rest2)).1 = _
            exact ih l hl
  have hgo_snd : ∀ id ls, (layered_obs_delete_go id ls).2 =
      ls.map (fun l => mapDelete l id) := by
    intro id ls
    induction ls with
    | nil => rfl
    | cons x rest ih =>
        cases rest with
        | nil =>
            rw [layered_obs_delete_go, mem_obs_delete]
            by_cases h : mapHas x id
            · rw [if_pos h]
              rfl
            · rw [if_neg h]
              rfl
        | cons y rest2 =>
            show ((mem_obs_delete x id).2 :: (layered_obs_delete_go id (y :: rest2)).2) = _
            have hx : (mem_obs_delete x id).2 = mapDelete x id := by
              rw [mem_obs_delete]
              by_cases h : mapHas x id
              · rw [if_pos h]
              · rw [if_neg h]
            rw [hx, ih]
            simp
  refine ⟨?_, ?_, fun _ => rfl, ?_⟩
  · intro ls l id hl
    cases ls with
    | nil => simp at hl
    | cons x rest => exact hgo_fst id (x :: rest) l hl
  · intro ls id
    cases ls with
    | nil => rfl
    | cons x rest => exact hgo_snd id (x :: rest)
  · intro ros id hall
    rw [layered_obs_get]
    have : ros.findSome? (fun o => o) = none := by
      rw [List.findSome?_eq_none]
      intro o ho
      exact hall o ho
    rw [this]

/-- A small concrete observation row used by witnesses and the C3
scenario. -/
def sampleRow (i ver created : String) : ObservationRow :=
  { id := i, type := "t", source_store_id := "docs", source_version := ver,
    content := "c", created_at := created }

/-- Witness for C10: two write layers where the first layer's delete fails
with observation_not_found but the second succeeds; the layered result is
the second layer's ok, and both layers lose the row. -/
theorem claim10_layered_observations_witness :
    (layered_obs_delete [[], [("o1", sampleRow "o1" "v" "1")]] "o1").1 =
      Except.ok () ∧
    (layered_obs_delete [[], [("o1", sampleRow "o1" "v" "1")]] "o1").2 =
      [[], []] ∧
    (layered_obs_delete [] "o1").1 =
      Except.error ⟨.observation_not_found, "", "", "o1"⟩ ∧
    layered_obs_get [none, none] "o1" =
      Except.error ⟨.observation_not_found, "", "", "o1"⟩ := by
  have h := claim10_layered_observations
  refine ⟨?_, ?_, h.2.2.1 "o1", ?_⟩
  · rw [h.1 _ [("o1", sampleRow "o1" "v" "1")] "o1" (by decide)]
    decide
  · rw [h.2.1]
    decide
  · refine h.2.2.2 [none, none] "o1" ?_
    intro o ho
    rcases List.mem_cons.mp ho with rfl | ho
    · rfl
    · rcases List.mem_cons.mp ho with rfl | ho
      · rfl
      · exact absurd ho (List.not_mem_nil o)

/-! ## C3: observation queries and staleness
(src/observations/index.ts client, src/observations/storage.ts filters) -/

/-- Query options at the storage layer (src/observations/storage.ts
StorageQueryOpts); dates are ISO strings here.  A type filter is either a
single name or a list. -/
structure StorageQueryOpts where
  type : Option (String ⊕ List String) := none
  source_store_id : Option String := none
  source_version : Option String := none
  source_prefix : Option String := none
  created_after : Option String := none
  created_before : Option String := none
  observed_after : Option String := none
  observed_before : Option String := none
  limit : Option Nat := none
deriving Repr

/-- The configured row predicates of observation_filter_pipeline
(src/observations/storage.ts lines 123-141), each applied only when its
option is present, per the filter-pipeline contract.  String comparison of
ISO timestamps is the JavaScript code-unit order. -/
def obs_row_matches (o : StorageQueryOpts) (r : ObservationRow) : Bool :=
  (match o.type with
   | none => true
   | some (Sum.inl s) => r.type = s
   | some (Sum.inr l) => l.contains r.type) &&
  (match o.source_store_id with
   | none => true
   | some s => r.source_store_id = s) &&
  (match o.source_version with
   | none => true
   | some v => r.source_version = v) &&
  (match o.source_prefix with
   | none => true
   | some p => strStartsWith r.source_version p) &&
  (match o.created_after with
   | none => true
   | some a => jsLt a r.created_at) &&
  (match o.created_before with
   | none => true
   | some b => jsLt r.created_at b) &&
  (match o.observed_after with
   | none => true
   | some a => match r.observed_at with
       | none => false
       | some oa => jsLt a oa) &&
  (match o.observed_before with
   | none => true
   | some b => match r.observed_at with
       | none => false
       | some oa => jsLt oa b)

/-- filter_observation_rows: the filter pipeline instantiated with the
predicates above, the created_at-descending sort (localeCompare on ISO
strings, which is the code-unit order for this ASCII alphabet), and the
limit.  The generic create_filter_pipeline combinator is exported from
src/utils but its body is not under src/.
Modelled from the spec: create_filter_pipeline applies each predicate only
if its keyed option is present, sorts by the declared order, and applies
the limit after sorting. -/
def filter_observation_rows (rows : List ObservationRow) (o : StorageQueryOpts) :
    List ObservationRow :=
  let sorted := sortByLe (fun a b => !(jsLt a.created_at b.created_at))
    (rows.filter (obs_row_matches o))
  match o.limit with
  | some n => sorted.take n
  | none => sorted

/-- The version filter of the client (src/observations/index.ts lines
28-32): a function, a Set, or an array of versions. -/
inductive VersionFilter where
  | fn (f : String → String → Bool)
  | set (s : List String)
  | list (l : List String)

/-- apply_version_filter. -/
def apply_version_filter (f : VersionFilter) (store_id version : String) : Bool :=
  match f with
  | .fn f => f store_id version
  | .set s => s.contains version
  | .list l => l.contains version

/-- Client query options (src/unnamed/part_007 ObservationQueryOpts plus
the version_filter the client file reads).  include_stale is declared and
accepted here, as in the TypeScript type; the date options are carried as
ISO strings, matching what to_storage_opts produces from them. -/
structure ObservationQueryOpts where
  type : Option (String ⊕ List String) := none
  source_store : Option String := none
  source_version : Option String := none
  source_prefix : Option String := none
  after : Option String := none
  before : Option String := none
  created_after : Option String := none
  created_before : Option String := none
  include_stale : Bool := false
  limit : Option Nat := none
  version_filter : Option VersionFilter := none

/-- to_storage_opts (src/observations/index.ts lines 38-50).  Note that
include_stale is dropped. -/
def to_storage_opts (o : ObservationQueryOpts) : StorageQueryOpts :=
  { type := o.type
    source_store_id := o.source_store
    source_version := o.source_version
    source_prefix := o.source_prefix
    created_after := o.created_after
    created_before := o.created_before
    observed_after := o.after
    observed_before := o.before
    limit := o.limit }

/-- create_observations_client.query (src/observations/index.ts lines
108-118) over the memory adapter (whose query_rows is
filter_observation_rows of all rows): translate the options, filter and
sort at the storage layer, then keep a row only if the version_filter,
when present, accepts it.  No other filtering happens: include_stale is
never read.  row_to_observation only reshapes a row, so the model yields
the rows themselves. -/
def observations_query (rows : List ObservationRow) (o : ObservationQueryOpts) :
    List ObservationRow :=
  (filter_observation_rows rows (to_storage_opts o)).filter (fun r =>
    match o.version_filter with
    | none => true
    | some f => apply_version_filter f r.source_store_id r.source_version)

/-- get_latest_version of the client (src/observations/index.ts lines
57-60) over the memory metadata client. -/
def get_latest_version (st : MemoryState) (sid : String) : Option String :=
  match memory_get_latest st sid with
  | Except.ok m => some m.version
  | Except.error _ => none

/-- is_stale (src/observations/index.ts lines 147-151): false when the
store has no latest version, else true exactly when the pointer's version
differs from the latest. -/
def observations_is_stale (st : MemoryState) (p_store p_version : String) : Bool :=
  match get_latest_version st p_store with
  | none => false
  | some latest => p_version ≠ latest

/-- The metadata rows of the C3 scenario: store docs with snapshot v1
(created at 1) and the newer v2 (created at 2). -/
def staleMeta (ver : String) (created : Nat) : SnapshotMeta :=
  { store_id := "docs", version := ver, parents := [], created_at := created,
    content_hash := "", content_type := "", size_bytes := 0, data_key := "" }

/-- The C3 metadata state. -/
def staleState : MemoryState :=
  ⟨[("docs:v1", staleMeta "v1" 1), ("docs:v2", staleMeta "v2" 2)], []⟩

/-- C3 (refuted, code bug): with one observation on the stale v1 and one
on the latest v2, the pointer docs/v1 is stale by is_stale, yet the
default query (include_stale absent/false) yields both observations, not
only the one on v2 -- query never consults include_stale or any staleness
filter, so its result is identical with include_stale set to true.  The
repository's own tests (src/tests/observations.test.ts, "query excludes
stale by default") assert that the default query yields only the
observation on the latest version. -/
theorem claim3_stale_filter_bug :
    observations_is_stale staleState "docs" "v1" = true ∧
    observations_is_stale staleState "docs" "v2" = false ∧
    observations_query
      [sampleRow "o1" "v1" "2024-01-01T00:00:01.000Z",
       sampleRow "o2" "v2" "2024-01-01T00:00:02.000Z"] {} =
      [sampleRow "o2" "v2" "2024-01-01T00:00:02.000Z",
       sampleRow "o1" "v1" "2024-01-01T00:00:01.000Z"] ∧
    (observations_query
      [sampleRow "o1" "v1" "2024-01-01T00:00:01.000Z",
       sampleRow "o2" "v2" "2024-01-01T00:00:02.000Z"] {}).length = 2 ∧
    observations_query
      [sampleRow "o1" "v1" "2024-01-01T00:00:01.000Z",
       sampleRow "o2" "v2" "2024-01-01T00:00:02.000Z"]
      { include_stale := true } =
      observations_query
        [sampleRow "o1" "v1" "2024-01-01T00:00:01.000Z",
         sampleRow "o2" "v2" "2024-01-01T00:00:02.000Z"] {} := by
  refine ⟨by decide, by decide, ?_, ?_, rfl⟩
  · rfl
  · rfl

end Corpus
